import Mathlib

/-!
Verification development for the cisco.ios cliconf plugin
(`plugins/cliconf/ios.py`).  The Python source is shallowly embedded:
strings become `String`/`List Char`, the interactive channel becomes an
explicit response oracle `String → String` (or `String → Except ConnFailure
String` where transport failures matter), and every `send_command` is
recorded in an explicit trace.  Fallible code returns `Except`/`Option`.
Components of the system that live in the ansible.netcommon collection
(`NetworkConfig`, `ConfigLine`, the cliconf base checks) are modelled from
the specification, as marked on each definition.
-/

/-! ## Character level utilities (Python semantics) -/

/-- Python whitespace characters, as matched by `str.strip` and `\s`. -/
def isPySpace (c : Char) : Bool :=
  c = ' ' || c = '\t' || c = '\n' || c = '\r' || c = '\x0b' || c = '\x0c'

/-- Python regex `\w` word characters (ASCII model). -/
def isWordChar (c : Char) : Bool := c.isAlphanum || c = '_'

/-- Substring containment of `needle` in `hay`, Python `needle in hay`. -/
def containsL (hay needle : List Char) : Bool :=
  hay.tails.any (fun t => needle.isPrefixOf t)

/-- Python `needle in hay` on strings. -/
def containsS (hay needle : String) : Bool := containsL hay.data needle.data

/-- Drop trailing characters satisfying `p`. -/
def dropTrail (p : Char → Bool) (l : List Char) : List Char :=
  (l.reverse.dropWhile p).reverse

/-- Python `str.strip()`. -/
def pyStrip (l : List Char) : List Char :=
  dropTrail isPySpace (l.dropWhile isPySpace)

/-- Python `str.rstrip()`. -/
def pyRstrip (l : List Char) : List Char := dropTrail isPySpace l

/-- Python `str.strip()` at `String` level. -/
def pyStripS (s : String) : String := String.mk (pyStrip s.data)

/-- Python `s.startswith(pre)` (kernel-reducible model). -/
def strStarts (s pre : String) : Bool := pre.data.isPrefixOf s.data

/-! ## The regex checks used by `Cliconf.configure`

`re.search(r"Archive.*not.enabled", archive_state)`: an occurrence of
`Archive`, then a gap of non-newline characters, then `not`, one
non-newline character, and `enabled`.  The second check is a plain
substring search for `%No Rollback Confirmed Change pending`. -/

/-- Does `not` + any-non-newline + `enabled` match at the head of `l`? -/
def notEnabledAt (l : List Char) : Bool :=
  "not".data.isPrefixOf l &&
    (match l.drop 3 with
     | d :: r => d ≠ '\n' && "enabled".data.isPrefixOf r
     | [] => false)

/-- Scan forward over non-newline gap characters looking for
`not.enabled` (regex backtracking over `.*`). -/
def archGap : List Char → Bool
  | [] => false
  | c :: rest => notEnabledAt (c :: rest) || (c ≠ '\n' && archGap rest)

/-- Scan for a start position where `Archive` matches, then the gap. -/
def archScan : List Char → Bool
  | [] => false
  | c :: rest =>
    ("Archive".data.isPrefixOf (c :: rest) && archGap ((c :: rest).drop 7)) ||
      archScan rest

/-- `re.search(r"Archive.*not.enabled", s)` from `Cliconf.configure`. -/
def archiveNotEnabled (s : String) : Bool := archScan s.data

/-- `re.search(r"%No Rollback Confirmed Change pending", s)`: the pattern
has no metacharacters, so it is a substring search. -/
def rollbackNonePending (s : String) : Bool :=
  containsS s "%No Rollback Confirmed Change pending"

/-! ## Plugin options and `Cliconf.configure` -/

/-- The two commit-confirm plugin options.  `commit_confirm_timeout` is the
Python `int`-or-`None` option value. -/
structure CliOpts where
  commit_confirm_immediate : Bool
  commit_confirm_timeout : Option Int
deriving DecidableEq, Repr

/-- Python truthiness of the `commit_confirm_timeout` option value
(`None` and `0` are falsy). -/
def optTruthy : Option Int → Bool
  | none => false
  | some v => v ≠ 0

/-- `commit_timeout = get_option(...) if get_option(...) else 1`. -/
def resolveTimeout (o : CliOpts) : Int :=
  match o.commit_confirm_timeout with
  | some v => if v ≠ 0 then v else 1
  | none => 1

/-- `Cliconf.configure` (ios.py lines 343-384).  The channel is an
oracle `dev` giving each sent command's response; the result is the list
of commands sent, in order, together with `some errorMessage` when the
method raises `ValueError`.  `pct` is
`self._connection.get_option("persistent_command_timeout")`. -/
def configure (dev : String → String) (o : CliOpts) (pct : Int) :
    List String × Option String :=
  if optTruthy o.commit_confirm_timeout || o.commit_confirm_immediate then
    let ct := resolveTimeout o
    let archive_state := dev "show archive"
    let rollback_state := dev "show archive config rollback timer"
    let sent := ["show archive", "show archive config rollback timer"]
    if pct > ct * 60 then
      (sent, some "ansible_command_timeout cant be greater than commit_confirm_timeout Please adjust and try again")
    else if archiveNotEnabled archive_state then
      (sent, some "commit_confirm_immediate option set, but archiving not enabled on device. Please set up archiving and try again")
    else if ¬ rollbackNonePending rollback_state then
      (sent, some "Existing rollback change already pending. Please resolve by issuing configure confirm or configure revert now")
    else
      (sent ++ ["configure terminal revert timer " ++ toString ct], none)
  else
    (["configure terminal"], none)

/-! ## C1 -/

/-- A channel oracle whose device has archiving enabled and no pending
rollback, used for concrete checks. -/
def healthyDev : String → String := fun c =>
  if c = "show archive" then "Archive feature enabled"
  else if c = "show archive config rollback timer" then
    "%No Rollback Confirmed Change pending"
  else "ok"

/-- C1 counterexample: the claim counts `commit_confirm_timeout=0` (with
`commit_confirm_immediate` unset) as "commit-confirm configured", so with
`persistent_command_timeout = 400 > 0*60` it predicts a precondition
error; the code treats `0` as falsy, skips every check, and sends the
plain `configure terminal`. -/
theorem configure_zero_timeout_counterexample :
    configure healthyDev ⟨false, some 0⟩ 400 = (["configure terminal"], none) := by
  decide

/-- C1 (amended): when commit-confirm is configured in the code's sense
(`commit_confirm_immediate` set, or `commit_confirm_timeout` set to a
nonzero value; an unset or zero timeout resolves to 1 minute), `configure`
raises a precondition `ValueError` and sends no configuration-mode
command if `persistent_command_timeout` exceeds `commit_confirm_timeout*60`
seconds, if device archiving is disabled, or if a rollback is already
pending; if all three checks pass it sends exactly
`configure terminal revert timer <timeout>` after the two informational
show commands. -/
theorem configure_commit_confirm_gate (dev : String → String) (o : CliOpts)
    (pct : Int) (hcc : optTruthy o.commit_confirm_timeout = true ∨
      o.commit_confirm_immediate = true) :
    (pct > resolveTimeout o * 60 →
      (configure dev o pct).2.isSome = true ∧
      ∀ c ∈ (configure dev o pct).1, strStarts c "configure" = false) ∧
    (pct ≤ resolveTimeout o * 60 →
      archiveNotEnabled (dev "show archive") = true →
      (configure dev o pct).2.isSome = true ∧
      ∀ c ∈ (configure dev o pct).1, strStarts c "configure" = false) ∧
    (pct ≤ resolveTimeout o * 60 →
      archiveNotEnabled (dev "show archive") = false →
      rollbackNonePending (dev "show archive config rollback timer") = false →
      (configure dev o pct).2.isSome = true ∧
      ∀ c ∈ (configure dev o pct).1, strStarts c "configure" = false) ∧
    (pct ≤ resolveTimeout o * 60 →
      archiveNotEnabled (dev "show archive") = false →
      rollbackNonePending (dev "show archive config rollback timer") = true →
      configure dev o pct =
        (["show archive", "show archive config rollback timer",
          "configure terminal revert timer " ++ toString (resolveTimeout o)], none)) := by
  have hgate : (optTruthy o.commit_confirm_timeout || o.commit_confirm_immediate) = true := by
    rcases hcc with h | h <;> simp [h]
  refine ⟨?_, ?_, ?_, ?_⟩
  · intro hgt
    constructor
    · simp [configure, hgate, if_pos hgt]
    · intro c hc
      simp [configure, hgate, if_pos hgt] at hc
      rcases hc with h | h <;> simp [h, String.startsWith] <;> decide
  · intro hle harch
    have hnot : ¬ pct > resolveTimeout o * 60 := not_lt.mpr hle
    constructor
    · simp [configure, hgate, if_neg hnot, harch]
    · intro c hc
      simp [configure, hgate, if_neg hnot, harch] at hc
      rcases hc with h | h <;> simp [h, String.startsWith] <;> decide
  · intro hle harch hroll
    have hnot : ¬ pct > resolveTimeout o * 60 := not_lt.mpr hle
    constructor
    · simp [configure, hgate, if_neg hnot, harch, hroll]
    · intro c hc
      simp [configure, hgate, if_neg hnot, harch, hroll] at hc
      rcases hc with h | h <;> simp [h, String.startsWith] <;> decide
  · intro hle harch hroll
    have hnot : ¬ pct > resolveTimeout o * 60 := not_lt.mpr hle
    simp [configure, hgate, if_neg hnot, harch, hroll]

/-- C1 witness: with `commit_confirm_timeout=5`, a 400 second command
timeout fails the precondition (400 > 300), while a 200 second timeout
passes all checks on a healthy device and sends
`configure terminal revert timer 5`. -/
theorem configure_commit_confirm_gate_witness :
    ((configure healthyDev ⟨false, some 5⟩ 400).2.isSome = true ∧
      ∀ c ∈ (configure healthyDev ⟨false, some 5⟩ 400).1, strStarts c "configure" = false) ∧
    configure healthyDev ⟨false, some 5⟩ 200 =
      (["show archive", "show archive config rollback timer",
        "configure terminal revert timer 5"], none) := by
  constructor
  · exact (configure_commit_confirm_gate healthyDev ⟨false, some 5⟩ 400
      (Or.inl (by decide))).1 (by decide)
  · exact (configure_commit_confirm_gate healthyDev ⟨false, some 5⟩ 200
      (Or.inl (by decide))).2.2.2 (by decide) (by decide) (by decide)

/-! ## `edit_config`, `run_commands`, `edit_macro` (ios.py lines 386-455, 590-612) -/

/-- A candidate line for `edit_config`: a plain string or a
line-with-options mapping; only the `command` entry matters here. -/
structure CmdObj where
  command : String
deriving DecidableEq, Repr

/-- Errors raised by the editing methods: Python `ValueError` and
`IndexError`. -/
inductive EditErr
  | valueErr (msg : String)
  | indexErr
deriving DecidableEq, Repr

/-- Modelled from the spec: `check_edit_config_capability` lives in the
ansible.netcommon cliconf base, not in this repository.  Per the external
interface it validates that a candidate or replace argument is supplied
and rejects the replace/comment options, which this plugin's fixed
device-operations map does not support. -/
def check_edit_config_capability (candidateTruthy : Bool)
    (replace comment : Option String) : Option String :=
  if ¬ candidateTruthy ∧ replace = none then
    some "must provide a candidate or replace to load configuration"
  else if replace.isSome then some "configuration replace is not supported"
  else if comment.isSome then some "commit comment is not supported"
  else none

/-- The per-line loop of `Cliconf.edit_config` (ios.py lines 398-405):
skip a line whose command is exactly `end`; otherwise test its first
character against the comment marker `!` (an `IndexError` on an empty
command) and send it, recording command and response.  Returns the trace
of sent commands and, on success, the parallel (requests, responses)
lists. -/
def editLoop (dev : String → String) :
    List CmdObj → List String × Except EditErr (List String × List String)
  | [] => ([], .ok ([], []))
  | l :: rest =>
    if l.command = "end" then editLoop dev rest
    else
      match l.command.data with
      | [] => ([], .error .indexErr)
      | c :: _ =>
        if c = '!' then editLoop dev rest
        else
          let (tr, r) := editLoop dev rest
          (l.command :: tr,
            match r with
            | .ok (reqs, ress) => .ok (l.command :: reqs, dev l.command :: ress)
            | .error e => .error e)

/-- `Cliconf.edit_config` (ios.py lines 386-416).  Returns the trace of
commands sent over the channel, and the `{"request": ..., "response": ...}`
result or the raised error. -/
def edit_config (dev : String → String) (o : CliOpts) (pct : Int)
    (candidate : List CmdObj) (commit : Bool) (replace comment : Option String) :
    List String × Except EditErr (List String × List String) :=
  match check_edit_config_capability (!candidate.isEmpty) replace comment with
  | some m => ([], .error (.valueErr m))
  | none =>
    if commit then
      let (ctr, cerr) := configure dev o pct
      match cerr with
      | some m => (ctr, .error (.valueErr m))
      | none =>
        let (tr, r) := editLoop dev candidate
        match r with
        | .error e => (ctr ++ tr, .error e)
        | .ok (reqs, ress) =>
          (ctr ++ tr ++ ["end"] ++
            (if o.commit_confirm_immediate then ["configure confirm"] else []),
           .ok (reqs, ress))
    else ([], .error (.valueErr "check mode is not supported"))

/-- Is a candidate line kept (sent) by the `edit_config` loop?  Only
meaningful for nonempty commands. -/
def keepCmd (l : CmdObj) : Bool :=
  l.command ≠ "end" &&
    (match l.command.data with
     | [] => false
     | c :: _ => c ≠ '!')

/-- A transport failure (`AnsibleConnectionFailure`): optional `err`
attribute and the exception's text. -/
structure ConnFailure where
  err : Option String
  msg : String
deriving DecidableEq, Repr

/-- Errors raised by `run_commands`. -/
inductive RunErr
  | valueErr (msg : String)
  | connErr (e : ConnFailure)
deriving DecidableEq, Repr

/-- A command for `run_commands`: command text plus the unsupported
`output` mapping key. -/
structure RunCmd where
  command : String
  output : Option String
deriving DecidableEq, Repr

/-- `getattr(e, "err", to_text(e))`. -/
def failText (e : ConnFailure) : String := e.err.getD e.msg

/-- The loop of `Cliconf.run_commands` (ios.py lines 594-611). -/
def runLoop (dev : String → Except ConnFailure String) (check_rc : Bool) :
    List RunCmd → Except RunErr (List String)
  | [] => .ok []
  | c :: rest =>
    if c.output.isSome then
      .error (.valueErr "output value is not supported for run_commands")
    else
      match dev c.command with
      | .ok out => (runLoop dev check_rc rest).map (out :: ·)
      | .error e =>
        if check_rc then .error (.connErr e)
        else (runLoop dev check_rc rest).map (failText e :: ·)

/-- `Cliconf.run_commands` (ios.py lines 590-612). -/
def run_commands (dev : String → Except ConnFailure String)
    (commands : Option (List RunCmd)) (check_rc : Bool) :
    Except RunErr (List String) :=
  match commands with
  | none => .error (.valueErr "commands value is required")
  | some cmds => runLoop dev check_rc cmds

/-- `Cliconf.edit_macro` (ios.py lines 418-455).  Python's
`candidate.pop(0)` / `candidate.pop(-1)` destructively mutate the caller's
list, so the result carries the final state of the candidate list next to
the `(requests, responses)` pair. -/
def edit_macro (dev : String → String) (candidate : List String)
    (commit : Bool) (replace comment : Option String) :
    Except EditErr (List String × List String × List String) :=
  match check_edit_config_capability (!candidate.isEmpty) replace comment with
  | some m => .error (.valueErr m)
  | none =>
    if commit then
      match candidate with
      | [] => .error .indexErr
      | hd :: tl =>
        match tl.getLast? with
        | none => .error .indexErr
        | some delim =>
          let body := tl.dropLast
          let commands := hd ++ "\n" ++
            String.join (body.map (fun l => " " ++ l ++ "\n")) ++ delim ++ "\n"
          .ok (body, [commands, "\n"], [dev commands, dev "\n"])
    else .ok (candidate, [], [])

/-! ## C5, C6, C9, C10 -/

/-- The `edit_config` loop on commands that are all nonempty: kept lines
are exactly those that are not `end` and do not start with `!`, sent in
order, with requests and responses recorded in parallel. -/
theorem editLoop_eq (dev : String → String) (cand : List CmdObj)
    (h : ∀ l ∈ cand, l.command ≠ "") :
    editLoop dev cand =
      ((cand.filter keepCmd).map (·.command),
        .ok ((cand.filter keepCmd).map (·.command),
          (cand.filter keepCmd).map (fun l => dev l.command))) := by
  induction cand with
  | nil => rfl
  | cons l rest ih =>
    have hl : l.command ≠ "" := h l (by simp)
    have hrest := ih (fun x hx => h x (by simp [hx]))
    by_cases hend : l.command = "end"
    · simp [editLoop, hend, hrest, keepCmd]
    · cases hc : l.command.data with
      | nil => exact absurd (String.ext (hc.trans rfl)) hl
      | cons c cs =>
        by_cases hbang : c = '!'
        · simp [editLoop, hend, hc, hbang, hrest, keepCmd]
        · simp [editLoop, hend, hc, hbang, hrest, keepCmd]

/-- C5: `edit_config` with `commit=False` fails immediately with a
`ValueError` and sends nothing; with `commit=True` (and its arguments
otherwise supported, configuration-mode entry succeeding, and every
command nonempty so the comment-marker check is total) it enters
configuration mode, sends every line whose command is not `end` and does
not start with `!`, records requests and responses in two parallel
equal-length ordered lists, sends `end` unconditionally, sends
`configure confirm` iff `commit_confirm_immediate` is set, and returns
the two lists. -/
theorem edit_config_commit_behavior (dev : String → String) (o : CliOpts)
    (pct : Int) (candidate : List CmdObj) (replace comment : Option String) :
    ((edit_config dev o pct candidate false replace comment).1 = [] ∧
      ∃ m, (edit_config dev o pct candidate false replace comment).2 =
        .error (.valueErr m)) ∧
    (replace = none → comment = none → candidate ≠ [] →
      (configure dev o pct).2 = none →
      (∀ l ∈ candidate, l.command ≠ "") →
      edit_config dev o pct candidate true replace comment =
        ((configure dev o pct).1 ++ (candidate.filter keepCmd).map (·.command) ++
            ["end"] ++
            (if o.commit_confirm_immediate then ["configure confirm"] else []),
          .ok ((candidate.filter keepCmd).map (·.command),
            (candidate.filter keepCmd).map (fun l => dev l.command))) ∧
      ((candidate.filter keepCmd).map (·.command)).length =
        ((candidate.filter keepCmd).map (fun l => dev l.command)).length) := by
  constructor
  · cases hcap : check_edit_config_capability (!candidate.isEmpty) replace comment with
    | some m => exact ⟨by simp [edit_config, hcap], m, by simp [edit_config, hcap]⟩
    | none =>
      exact ⟨by simp [edit_config, hcap], "check mode is not supported",
        by simp [edit_config, hcap]⟩
  · intro hrep hcom hne hconf hcmds
    have hcap : check_edit_config_capability (!candidate.isEmpty) replace comment = none := by
      simp [check_edit_config_capability, hrep, hcom, hne]
    have hloop := editLoop_eq dev candidate hcmds
    constructor
    · simp only [edit_config, hcap]
      rw [hloop]
      have : configure dev o pct = ((configure dev o pct).1, none) := by
        rw [← hconf]
      rw [this]
      simp
    · simp

/-- C5 witness at a concrete channel, option set and candidate list. -/
theorem edit_config_commit_behavior_witness :
    ((edit_config healthyDev ⟨false, none⟩ 10
        [⟨"hostname R1"⟩, ⟨"end"⟩, ⟨"!note"⟩, ⟨"ip routing"⟩] false none none).1 = [] ∧
      ∃ m, (edit_config healthyDev ⟨false, none⟩ 10
        [⟨"hostname R1"⟩, ⟨"end"⟩, ⟨"!note"⟩, ⟨"ip routing"⟩] false none none).2 =
        .error (.valueErr m)) ∧
    edit_config healthyDev ⟨false, none⟩ 10
        [⟨"hostname R1"⟩, ⟨"end"⟩, ⟨"!note"⟩, ⟨"ip routing"⟩] true none none =
      (["configure terminal", "hostname R1", "ip routing", "end"],
        .ok (["hostname R1", "ip routing"], ["ok", "ok"])) := by
  have h := edit_config_commit_behavior healthyDev ⟨false, none⟩ 10
    [⟨"hostname R1"⟩, ⟨"end"⟩, ⟨"!note"⟩, ⟨"ip routing"⟩] none none
  refine ⟨h.1, ?_⟩
  have h2 := (h.2 rfl rfl (by decide) (by decide) (by decide)).1
  rw [h2]
  rfl

/-- The `edit_config` loop hits the `IndexError` whenever some command in
the list is the empty string. -/
theorem editLoop_empty_command (dev : String → String) (cand : List CmdObj)
    (hmem : ∃ l ∈ cand, l.command = "") :
    (editLoop dev cand).2 = .error .indexErr := by
  induction cand with
  | nil => simp at hmem
  | cons l rest ih =>
    rcases hmem with ⟨x, hx, hxe⟩
    rcases List.mem_cons.mp hx with h | h
    · have hle : l.command = "" := h ▸ hxe
      simp [editLoop, hle, show ("" : String) ≠ "end" from by decide,
        show String.data "" = [] from rfl]
    · have hrec := ih ⟨x, h, hxe⟩
      by_cases hend : l.command = "end"
      · simpa [editLoop, hend] using hrec
      · cases hc : l.command.data with
        | nil => simp [editLoop, hend, hc]
        | cons c cs =>
          by_cases hbang : c = '!'
          · simpa [editLoop, hend, hc, hbang] using hrec
          · have heq : (editLoop dev (l :: rest)) =
                (l.command :: (editLoop dev rest).1,
                  match (editLoop dev rest).2 with
                  | .ok (reqs, ress) => .ok (l.command :: reqs, dev l.command :: ress)
                  | .error e => .error e) := by
              simp [editLoop, hend, hc, hbang]
            rw [heq]
            simp [hrec]

/-- C9: if the candidate list passed to `edit_config` with `commit=True`
contains an empty-string command, the comment-marker test indexes the
first character of the empty string and the call raises `IndexError`
instead of skipping or sending the line (the skip check is total only
for nonempty commands). -/
theorem edit_config_empty_command_index_error (dev : String → String)
    (o : CliOpts) (pct : Int) (candidate : List CmdObj)
    (hconf : (configure dev o pct).2 = none)
    (hmem : ∃ l ∈ candidate, l.command = "") :
    (edit_config dev o pct candidate true none none).2 = .error .indexErr := by
  rcases hmem with ⟨x, hx, hxe⟩
  have hne : candidate ≠ [] := List.ne_nil_of_mem hx
  have hcap : check_edit_config_capability (!candidate.isEmpty) none none = none := by
    simp [check_edit_config_capability, hne]
  have hloop := editLoop_empty_command dev candidate ⟨x, hx, hxe⟩
  simp only [edit_config, hcap]
  have hcfg : configure dev o pct = ((configure dev o pct).1, none) := by
    rw [← hconf]
  rw [hcfg]
  simp only
  match he : editLoop dev candidate with
  | (tr, r) =>
    rw [he] at hloop
    simp at hloop
    subst hloop
    simp

/-- C9 witness. -/
theorem edit_config_empty_command_index_error_witness :
    (configure healthyDev ⟨false, none⟩ 10).2 = none ∧
    (edit_config healthyDev ⟨false, none⟩ 10 [⟨"hostname R1"⟩, ⟨""⟩] true none none).2 =
      .error .indexErr := by
  refine ⟨by decide, ?_⟩
  exact edit_config_empty_command_index_error healthyDev ⟨false, none⟩ 10
    [⟨"hostname R1"⟩, ⟨""⟩] (by decide) ⟨⟨""⟩, by simp, rfl⟩

/-- C6: with `check_rc=False`, a connection failure is suppressed and its
text (`err` attribute, else the exception text) is substituted as that
command's response, so the result has one entry per input command; with
`check_rc=True` the first failure propagates unmodified. -/
theorem run_commands_check_rc (dev : String → Except ConnFailure String)
    (cmds : List RunCmd) (h : ∀ c ∈ cmds, c.output = none) :
    run_commands dev (some cmds) false =
      .ok (cmds.map (fun c =>
        match dev c.command with
        | .ok s => s
        | .error e => failText e)) ∧
    (cmds.map (fun c =>
        match dev c.command with
        | .ok s => s
        | .error e => failText e)).length = cmds.length ∧
    run_commands dev (some cmds) true =
      Except.mapError RunErr.connErr (cmds.mapM (fun c => dev c.command)) := by
  refine ⟨?_, by simp, ?_⟩
  · induction cmds with
    | nil => rfl
    | cons c rest ih =>
      have hc : c.output = none := h c (by simp)
      have hrest := ih (fun x hx => h x (by simp [hx]))
      simp only [run_commands] at hrest ⊢
      cases hd : dev c.command with
      | ok s => simp [runLoop, hc, hd, hrest, Except.map]
      | error e => simp [runLoop, hc, hd, hrest, Except.map]
  · rw [run_commands, ← List.mapM'_eq_mapM]
    induction cmds with
    | nil => rfl
    | cons c rest ih =>
      have hc : c.output = none := h c (by simp)
      have hrest := ih (fun x hx => h x (by simp [hx]))
      cases hd : dev c.command with
      | ok s =>
        cases hr : List.mapM' (fun c => dev c.command) rest with
        | ok xs =>
          rw [hr] at hrest
          simp [runLoop, hc, hd, hrest, List.mapM', hr, Except.mapError, Except.map]
          try rfl
        | error e =>
          rw [hr] at hrest
          simp [runLoop, hc, hd, hrest, List.mapM', hr, Except.mapError, Except.map]
          try rfl
      | error e =>
        simp [runLoop, hc, hd, List.mapM', Except.mapError]
        try rfl

/-- A channel that raises a connection failure for `show clock`. -/
def clockFailDev : String → Except ConnFailure String := fun c =>
  if c = "show clock" then .error ⟨none, "connection failure text"⟩ else .ok "x"

/-- C6 witness: `run_commands(["show clock"], check_rc=False)` on a
channel that raises a connection failure returns a one-element list
containing the failure's text. -/
theorem run_commands_check_rc_witness :
    run_commands clockFailDev (some [⟨"show clock", none⟩]) false =
      .ok ["connection failure text"] := by
  have h := (run_commands_check_rc clockFailDev [⟨"show clock", none⟩]
    (by intro c hc; simp at hc; simp [hc])).1
  rw [h]
  rfl

/-- C10: `edit_macro` with `commit=True` destructively mutates the
caller's candidate list: afterwards the list has lost its first element
(the macro header) and its last element (the multiline delimiter),
retaining exactly the body lines. -/
theorem edit_macro_mutates_candidate (dev : String → String)
    (candidate : List String) (h2 : 2 ≤ candidate.length) :
    ∃ reqs ress, edit_macro dev candidate true none none =
      .ok (candidate.tail.dropLast, reqs, ress) ∧
      candidate.tail.dropLast.length = candidate.length - 2 := by
  match candidate, h2 with
  | hd :: tl, h2 =>
    have htl : tl ≠ [] := by
      intro h
      subst h
      simp at h2
    have hcap : check_edit_config_capability (!(hd :: tl).isEmpty) none none = none := by
      simp [check_edit_config_capability]
    cases hlast : tl.getLast? with
    | none => exact absurd (List.getLast?_eq_none_iff.mp hlast) htl
    | some delim =>
      have heq : edit_macro dev (hd :: tl) true none none =
          .ok (tl.dropLast,
            [hd ++ "\n" ++
              String.join (tl.dropLast.map (fun l => " " ++ l ++ "\n")) ++ delim ++ "\n", "\n"],
            [dev (hd ++ "\n" ++
              String.join (tl.dropLast.map (fun l => " " ++ l ++ "\n")) ++ delim ++ "\n"),
              dev "\n"]) := by
        unfold edit_macro
        simp [check_edit_config_capability, hlast]
      exact ⟨_, _, heq, by
        simp only [List.tail_cons, List.length_dropLast, List.length_cons]
        omega⟩

/-- C10 witness: a three-element macro list retains only the body line. -/
theorem edit_macro_mutates_candidate_witness :
    ∃ reqs ress, edit_macro healthyDev ["macro name X", "do a", "@"] true none none =
      .ok (["do a"], reqs, ress) := by
  obtain ⟨reqs, ress, h, -⟩ := edit_macro_mutates_candidate healthyDev
    ["macro name X", "do a", "@"] (by decide)
  exact ⟨reqs, ress, h⟩

/-! ## Banner extraction (`Cliconf._extract_banners`, ios.py lines 651-668)

The regexes involved: `re.findall(r"^banner (\w+)", config, re.M)` finds,
once per line starting with `banner ` plus word characters, the maximal
word-character run; `re.search(r"banner %s \^C(.+?)(?=\^C)" % cmd, config,
re.S)` finds the first position where the literal `banner <cmd> ^C`
occurs followed by a shortest nonempty body that is itself followed by
`^C`; `re.sub(r"banner \w+ \^C\^C", "!! banner removed", config)` rewrites
every (not necessarily line-anchored) occurrence of a
declaration-plus-adjacent-delimiter-pair. -/

/-- Split a character list into lines at `\n` (Python `str.split("\n")`
/ the line structure seen by `re.M`). -/
def splitNl : List Char → List (List Char)
  | [] => [[]]
  | c :: rest =>
    if c = '\n' then [] :: splitNl rest
    else
      match splitNl rest with
      | [] => [[c]]
      | hd :: tl => (c :: hd) :: tl

/-- Rejoin lines with `\n` (inverse of `splitNl`). -/
def joinNl : List (List Char) → List Char
  | [] => []
  | [l] => l
  | l :: rest => l ++ '\n' :: joinNl rest

/-- Strip an exact leading literal, returning the remainder. -/
def dropPre : List Char → List Char → Option (List Char)
  | [], l => some l
  | _ :: _, [] => none
  | p :: ps, c :: cs => if p = c then dropPre ps cs else none

/-- Match `^banner (\w+)` on one line: the literal `banner `, then the
captured maximal nonempty word-character run. -/
def bannerNameOf (line : List Char) : Option (List Char) :=
  match dropPre "banner ".data line with
  | none => none
  | some rest =>
    let w := rest.takeWhile isWordChar
    if w = [] then none else some w

/-- `re.findall(r"^banner (\w+)", config, re.M)`. -/
def findBannerNames (cfg : List Char) : List (List Char) :=
  (splitNl cfg).filterMap bannerNameOf

/-- The lazy group `(.+?)(?=\^C)` (with `re.S`): the shortest nonempty
prefix of the input that is immediately followed by `^C`. -/
def bodyBefore : List Char → Option (List Char)
  | [] => none
  | c :: rest =>
    if "^C".data.isPrefixOf rest then some [c]
    else
      match bodyBefore rest with
      | some b => some (c :: b)
      | none => none

/-- Scan for the first start position where the banner literal matches
and a delimited nonempty body follows (the `re.search` semantics,
including moving on when a literal occurrence has no closing `^C`). -/
def bannerSearchGo (lit : List Char) : List Char → Option (List Char)
  | [] => none
  | c :: rest =>
    match dropPre lit (c :: rest) with
    | some after =>
      match bodyBefore after with
      | some b => some b
      | none => bannerSearchGo lit rest
    | none => bannerSearchGo lit rest

/-- `re.search(r"banner %s \^C(.+?)(?=\^C)" % cmd, config, re.S)`:
the captured group. -/
def bannerSearch (cfg name : List Char) : Option (List Char) :=
  bannerSearchGo ("banner ".data ++ name ++ [' ', '^', 'C']) cfg

/-- Python `config.replace(needle, "")` (all occurrences, left to right),
with explicit fuel for structural recursion. -/
def replaceDropGo : Nat → List Char → List Char → List Char
  | 0, _, l => l
  | _ + 1, _, [] => []
  | fuel + 1, needle, c :: rest =>
    match dropPre needle (c :: rest) with
    | some after => replaceDropGo fuel needle after
    | none => c :: replaceDropGo fuel needle rest

/-- Python `hay.replace(needle, "")`. -/
def replaceDrop (hay needle : List Char) : List Char :=
  replaceDropGo (hay.length + 1) needle hay

/-- Length of a match of `banner \w+ \^C\^C` at the head of `l`
(`banner `, a maximal nonempty word run, then ` ^C^C`). -/
def subMatchLen (l : List Char) : Option Nat :=
  match dropPre "banner ".data l with
  | none => none
  | some r =>
    let w := r.takeWhile isWordChar
    if w = [] then none
    else
      match dropPre [' ', '^', 'C', '^', 'C'] (r.drop w.length) with
      | some _ => some (7 + w.length + 5)
      | none => none

/-- `re.sub(r"banner \w+ \^C\^C", "!! banner removed", config)` with
explicit fuel. -/
def subBannerGo : Nat → List Char → List Char
  | 0, l => l
  | _ + 1, [] => []
  | fuel + 1, c :: rest =>
    match subMatchLen (c :: rest) with
    | some n => "!! banner removed".data ++ subBannerGo fuel ((c :: rest).drop n)
    | none => c :: subBannerGo fuel rest

/-- The final placeholder rewrite of `_extract_banners`. -/
def subBanner (l : List Char) : List Char := subBannerGo (l.length + 1) l

/-- Does `banner \w+ \^C\^C` match anywhere in `l`? -/
def hasPlaceholderPattern : List Char → Bool
  | [] => false
  | c :: rest => (subMatchLen (c :: rest)).isSome || hasPlaceholderPattern rest

/-- A Python dict over string keys as an insertion-ordered association
list: assignment updates in place or appends. -/
def dictUpsert : List (List Char × List Char) → List Char → List Char →
    List (List Char × List Char)
  | [], k, v => [(k, v)]
  | kv :: rest, k, v =>
    if kv.1 = k then (k, v) :: rest else kv :: dictUpsert rest k v

/-- Python `dict.get`. -/
def dictGet : List (List Char × List Char) → List Char → Option (List Char)
  | [], _ => none
  | kv :: rest, k => if kv.1 = k then some kv.2 else dictGet rest k

/-- `Cliconf._extract_banners` (ios.py lines 651-668): collect the
trimmed bodies under `banner <name>` keys from the unmodified text, then
remove each (re-searched) untrimmed body from the working text, and
finally replace remaining declaration+delimiter pairs with the
placeholder comment. -/
def extract_banners (cfg : List Char) : List Char × List (List Char × List Char) :=
  let cmds := findBannerNames cfg
  let banners := cmds.foldl
    (fun m cmd =>
      match bannerSearch cfg cmd with
      | some body => dictUpsert m ("banner ".data ++ cmd) (pyStrip body)
      | none => m) []
  let cfg2 := cmds.foldl
    (fun c cmd =>
      match bannerSearch c cmd with
      | some body => replaceDrop c body
      | none => c) cfg
  (subBanner cfg2, banners)

/-- `Cliconf._diff_banners` (ios.py lines 670-675): the keys of `want`
whose value differs from `have.get(key)` (a missing key differs), with
the wanted value. -/
def diffBanners (want generated : List (List Char × List Char)) :
    List (List Char × List Char) :=
  want.foldl
    (fun m kv => if dictGet generated kv.1 = some kv.2 then m else dictUpsert m kv.1 kv.2)
    []

/-! ## C8 -/

/-- Updating a key makes it readable. -/
theorem dictGet_upsert_self (m : List (List Char × List Char)) (k v : List Char) :
    dictGet (dictUpsert m k v) k = some v := by
  induction m with
  | nil => simp [dictUpsert, dictGet]
  | cons kv rest ih =>
    by_cases h : kv.1 = k
    · simp [dictUpsert, dictGet, h]
    · simp [dictUpsert, dictGet, h, ih]

/-- Updating one key leaves the others unchanged. -/
theorem dictGet_upsert_other (m : List (List Char × List Char)) (k k' v : List Char)
    (h : k' ≠ k) :
    dictGet (dictUpsert m k' v) k = dictGet m k := by
  induction m with
  | nil => simp [dictUpsert, dictGet, h]
  | cons kv rest ih =>
    by_cases hk : kv.1 = k'
    · simp [dictUpsert, dictGet, hk, h]
    · by_cases hk2 : kv.1 = k
      · simp [dictUpsert, dictGet, hk, hk2, Ne.symm h]
      · simp [dictUpsert, dictGet, hk, hk2, ih]

/-- The placeholder rewrite is the identity when the pattern occurs
nowhere. -/
theorem subBannerGo_id (fuel : Nat) (l : List Char)
    (h : hasPlaceholderPattern l = false) : subBannerGo fuel l = l := by
  induction fuel generalizing l with
  | zero => rfl
  | succ fuel ih =>
    cases l with
    | nil => rfl
    | cons c rest =>
      simp only [hasPlaceholderPattern, Bool.or_eq_false_iff] at h
      have h1 : subMatchLen (c :: rest) = none := by
        cases hs : subMatchLen (c :: rest) with
        | none => rfl
        | some n => rw [hs] at h; simp at h
      simp only [subBannerGo, h1]
      rw [ih rest h.2]

/-- The banner-map fold leaves an already-recorded key untouched when no
remaining command names it. -/
theorem bannerFold_preserve (cfg : List Char) (cmds : List (List Char))
    (m : List (List Char × List Char)) (k v : List Char)
    (hget : dictGet m k = some v)
    (hne : ∀ cmd ∈ cmds, "banner ".data ++ cmd ≠ k) :
    dictGet (cmds.foldl
      (fun m cmd =>
        match bannerSearch cfg cmd with
        | some body => dictUpsert m ("banner ".data ++ cmd) (pyStrip body)
        | none => m) m) k = some v := by
  induction cmds generalizing m with
  | nil => simpa using hget
  | cons cmd rest ih =>
    have hcmd : "banner ".data ++ cmd ≠ k := hne cmd (by simp)
    have hrest : ∀ c ∈ rest, "banner ".data ++ c ≠ k := fun c hc => hne c (by simp [hc])
    simp only [List.foldl_cons]
    cases hs : bannerSearch cfg cmd with
    | none => exact ih m hget hrest
    | some body =>
      exact ih _ ((dictGet_upsert_other m k ("banner ".data ++ cmd) (pyStrip body) hcmd).trans hget) hrest

/-- After the banner-map fold, each found banner name maps to its
trimmed body. -/
theorem bannerFold_get (cfg : List Char) (cmds : List (List Char))
    (m : List (List Char × List Char)) (name body : List Char)
    (hname : name ∈ cmds) (hsearch : bannerSearch cfg name = some body) :
    dictGet (cmds.foldl
      (fun m cmd =>
        match bannerSearch cfg cmd with
        | some body => dictUpsert m ("banner ".data ++ cmd) (pyStrip body)
        | none => m) m) ("banner ".data ++ name) = some (pyStrip body) := by
  induction cmds generalizing m with
  | nil => simp at hname
  | cons cmd rest ih =>
    by_cases hmem : name ∈ rest
    · simp only [List.foldl_cons]
      exact ih _ hmem
    · have heq : name = cmd := by
        rcases List.mem_cons.mp hname with h | h
        · exact h
        · exact absurd h hmem
      subst heq
      simp only [List.foldl_cons, hsearch]
      refine bannerFold_preserve cfg rest _ _ _ (dictGet_upsert_self m _ _) ?_
      intro c hc hkey
      exact hmem ((List.append_cancel_left hkey) ▸ hc)

/-- C8 counterexample: `"xbanner motd ^C^C"` contains no banner
declaration line (`findBannerNames` is empty), yet `_extract_banners`
rewrites the text via the non-line-anchored placeholder substitution, so
the text is not returned unchanged. -/
theorem extract_banners_counterexample :
    findBannerNames "xbanner motd ^C^C".data = [] ∧
    extract_banners "xbanner motd ^C^C".data = ("x!! banner removed".data, []) ∧
    "x!! banner removed".data ≠ "xbanner motd ^C^C".data := by
  refine ⟨rfl, rfl, by decide⟩

/-- C8 (amended): banner extraction returns the text unchanged with an
empty banner map whenever the text has no banner declaration line and no
(possibly mid-line) occurrence of a `banner <word> ^C^C` fragment; and
whenever the banner body search succeeds for a declared banner name, the
body captured between the delimiter following the declaration and the
next delimiter is stored trimmed under the key `banner <name>`. -/
theorem extract_banners_behavior (cfg name body : List Char) :
    (findBannerNames cfg = [] → hasPlaceholderPattern cfg = false →
      extract_banners cfg = (cfg, [])) ∧
    (name ∈ findBannerNames cfg → bannerSearch cfg name = some body →
      dictGet (extract_banners cfg).2 ("banner ".data ++ name) = some (pyStrip body)) := by
  constructor
  · intro h1 h2
    simp only [extract_banners, h1, List.foldl_nil]
    rw [subBanner, subBannerGo_id _ _ h2]
  · intro hname hsearch
    simp only [extract_banners]
    exact bannerFold_get cfg _ [] name body hname hsearch

/-- C8 witness: a banner-free text is untouched with an empty map, and a
present banner is stored trimmed under its `banner <name>` key. -/
theorem extract_banners_behavior_witness :
    extract_banners "hostname R1".data = ("hostname R1".data, []) ∧
    dictGet (extract_banners "banner motd ^C hi ^C".data).2
      ("banner ".data ++ "motd".data) = some (pyStrip " hi ".data) := by
  constructor
  · exact (extract_banners_behavior "hostname R1".data [] []).1 rfl (by decide)
  · exact (extract_banners_behavior "banner motd ^C hi ^C".data "motd".data
      " hi ".data).2 (by decide) rfl

/-! ## NetworkConfig model

`NetworkConfig`/`ConfigLine` live in ansible.netcommon, not in this
repository; they are modelled from the specification (ConfigTree, §4.1):
indentation-based stack parsing of non-blank non-ignored lines, block
extraction by path, and text+ancestor-path line equality. -/

/-- Modelled from the spec: a parsed configuration line (ConfigLine) —
raw line, indentation depth, trimmed text, ancestor texts in
root-to-parent order, and the derived has-children flag. -/
structure PLine where
  raw : List Char
  ind : Nat
  text : List Char
  parents : List (List Char)
  hasChildren : Bool
deriving DecidableEq, Repr

/-- Leading-whitespace count of a line. -/
def leadingWS (l : List Char) : Nat := (l.takeWhile isPySpace).length

/-- Modelled from the spec: the stack-based indentation parser of
ConfigTree.parse.  Blank and ignored lines are dropped; the stack holds
`(indent, text)` of the open ancestors, innermost first; a line pops
every entry of greater-or-equal indent and attaches below the remaining
ones. -/
def parseGo (ignore : List Char → Bool) :
    List (List Char) → List (Nat × List Char) →
      List (List Char × Nat × List Char × List (List Char))
  | [], _ => []
  | l :: rest, stack =>
    if pyStrip l = [] ∨ ignore (pyStrip l) then parseGo ignore rest stack
    else
      let ind := leadingWS l
      let stack2 := stack.dropWhile (fun p => ind ≤ p.1)
      let parents := (stack2.map Prod.snd).reverse
      (l, ind, pyStrip l, parents) :: parseGo ignore rest ((ind, pyStrip l) :: stack2)

/-- Second pass: a line has children iff the next kept line is deeper. -/
def markChildren : List (List Char × Nat × List Char × List (List Char)) → List PLine
  | [] => []
  | e :: rest =>
    let hc := match rest with
      | [] => false
      | e2 :: _ => e.2.1 < e2.2.1
    ⟨e.1, e.2.1, e.2.2.1, e.2.2.2, hc⟩ :: markChildren rest

/-- Modelled from the spec: `NetworkConfig.load`/`parse` over a line
list. -/
def parseL (ignore : List Char → Bool) (lines : List (List Char)) : List PLine :=
  markChildren (parseGo ignore lines [])

/-- Parse a whole configuration text. -/
def parseConfig (ignore : List Char → Bool) (cfg : List Char) : List PLine :=
  parseL ignore (splitNl cfg)

/-- Modelled from the spec: resolve a path to the first line with
matching text and ancestor path. -/
def getBlockGo (lastSeg : List Char) (par : List (List Char)) :
    List PLine → Option (List PLine)
  | [] => none
  | it :: rest =>
    if it.text = lastSeg ∧ it.parents = par then
      some (it :: rest.takeWhile (fun x => it.ind < x.ind))
    else getBlockGo lastSeg par rest

/-- Modelled from the spec: `NetworkConfig.get_block` — the resolved
line together with its whole contiguous deeper-indented sub-block, in
document order; `none` when the path does not resolve. -/
def getBlock (items : List PLine) (path : List (List Char)) : Option (List PLine) :=
  match path.getLast? with
  | none => none
  | some lastSeg => getBlockGo lastSeg path.dropLast items

/-- Modelled from the spec: ConfigLine equality in strict/exact mode —
equal trimmed text and equal ancestor-path texts. -/
def pyEqLine (a b : PLine) : Bool := a.text = b.text && a.parents = b.parents

/-- Python `line in lines` under ConfigLine equality. -/
def pyMemLine (l : PLine) (xs : List PLine) : Bool := xs.any (pyEqLine l)

/-! ## The exact-mode diff branch of `Cliconf.get_diff` (ios.py 251-308) -/

/-- The negation pass (ios.py lines 280-298): for each have-line missing
from the want-lines, emit its not-yet-emitted ancestor context (checked
as a substring of the accumulated negation text and against the
negated-parents list), record it as a negated parent when it has
children, and emit `no <line>` (or the line itself when its text already
starts with `no `). -/
def negStep (wantL : List PLine) (st : List Char × List (List Char)) (line : PLine) :
    List Char × List (List Char) :=
  if pyMemLine line wantL then st
  else
    let neg := st.1 ++
      ((line.parents.filter (fun i => ¬ containsL st.1 i ∧ i ∉ st.2)).map
        (fun i => i ++ ['\n'])).flatten
    let np := if line.hasChildren then st.2 ++ [line.text] else st.2
    let neg2 :=
      if "no ".data.isPrefixOf (pyStrip line.text) then neg ++ line.raw ++ ['\n']
      else neg ++ "no ".data ++ line.raw ++ ['\n']
    (neg2, np)

/-- See the doc comment above: the accumulated negation text. -/
def negatesOf (haveL wantL : List PLine) : List Char :=
  (haveL.foldl (negStep wantL) ([], [])).1

/-- The addition pass (ios.py lines 300-306): for each want-line missing
from the have-lines, emit its not-yet-emitted ancestor context and the
raw line. -/
def wantStep (haveL : List PLine) (acc : List Char) (line : PLine) : List Char :=
  if pyMemLine line haveL then acc
  else
    (acc ++
      ((line.parents.filter (fun i => ¬ containsL acc i)).map
        (fun i => i ++ ['\n'])).flatten) ++ line.raw ++ ['\n']

/-- See the doc comment above: the accumulated addition text. -/
def wantsOf (haveL wantL : List PLine) : List Char :=
  wantL.foldl (wantStep haveL) []

/-! ## The section regex `(?P<parent>^\w.*\n?)(?P<child>(?:\s+.*\n?)*)`

Modelled at line level: a parent is a line whose first character is a
word character; the child group consumes following lines while the
position stays in whitespace — a blank or whitespace-only line makes
`\s+` span its newline and absorb the next content line regardless of
that line's first character. -/

/-- Does the line start with a whitespace character? -/
def lineStartsWS : List Char → Bool
  | [] => false
  | c :: _ => isPySpace c

/-- One child-group run (see the section comment above). -/
def childRunGo : Bool → List (List Char) → List (List Char) × List (List Char)
  | _, [] => ([], [])
  | absorbing, l :: rest =>
    if l.all isPySpace then
      (l :: (childRunGo true rest).1, (childRunGo true rest).2)
    else if absorbing || lineStartsWS l then
      (l :: (childRunGo false rest).1, (childRunGo false rest).2)
    else ([], l :: rest)

/-- The child run consumes at most the given lines. -/
theorem childRunGo_length (b : Bool) (ls : List (List Char)) :
    (childRunGo b ls).2.length ≤ ls.length := by
  induction ls generalizing b with
  | nil => simp [childRunGo]
  | cons l rest ih =>
    by_cases h1 : l.all isPySpace
    · have hr := ih true
      simp [childRunGo, h1]
      omega
    · cases h2 : (b || lineStartsWS l) with
      | true =>
        have hr := ih false
        simp [childRunGo, h1, h2]
        omega
      | false => simp [childRunGo, h1, h2]

/-- `re.findall` of the section pattern, at line level, with fuel. -/
def sectionsGo : Nat → List (List Char) → List (List Char × List (List Char))
  | 0, _ => []
  | _ + 1, [] => []
  | fuel + 1, l :: rest =>
    match l with
    | c :: _ =>
      if isWordChar c then
        let (cs, r) := childRunGo false rest
        (l, cs) :: sectionsGo fuel r
      else sectionsGo fuel rest
    | [] => sectionsGo fuel rest

/-- The candidate sections of `get_diff`'s exact branch, one per matched
top-level line, each with its absorbed child lines. -/
def sectionsOf (lines : List (List Char)) : List (List Char × List (List Char)) :=
  sectionsGo (lines.length + 1) lines

/-- `re.sub("\n\n", "\n", candidate)`: non-overlapping left-to-right
replacement of newline pairs. -/
def collapseNl : List Char → List Char
  | [] => []
  | [c] => [c]
  | a :: b :: rest =>
    if a = '\n' ∧ b = '\n' then '\n' :: collapseNl rest
    else a :: collapseNl (b :: rest)

/-! ## The general diff branch (`NetworkConfig.difference`, spec §4.3) -/

/-- Modelled from the spec: whether a candidate line is already
satisfied by the running configuration — by text alone in `line` mode,
by text and ancestor path in `strict`/`exact` mode. -/
def satisfiedBy (mtch : String) (run : List PLine) (l : PLine) : Bool :=
  if mtch = "line" then run.any (fun r => r.text = l.text)
  else run.any (fun r => pyEqLine r l)

/-- Modelled from the spec: emit the selected candidate lines in order,
each preceded by its not-yet-emitted ancestor context commands. -/
def diffEmit (cand : List PLine) (sel : PLine → Bool) : List (List Char) :=
  cand.foldl
    (fun acc l =>
      if sel l then acc ++ l.parents.filter (fun p => p ∉ acc) ++ [l.text]
      else acc)
    []

/-- Modelled from the spec: `NetworkConfig.difference` — restrict both
trees to `path` when given (a path that does not resolve is a
block-not-found error), then emit every unsatisfied candidate line; with
`replace=block` the whole sub-block of an unsatisfied line is emitted as
well. -/
def difference (candL runL : List PLine) (path : Option (List (List Char)))
    (mtch rplc : String) : Except String (List (List Char)) :=
  let build : List PLine → List PLine → List (List Char) := fun c r =>
    let unsat : PLine → Bool := fun l => ! satisfiedBy mtch r l
    let sel : PLine → Bool :=
      if rplc = "block" then
        fun l => unsat l ||
          c.any (fun u => unsat u && (u.parents ++ [u.text]).isPrefixOf l.parents)
      else unsat
    diffEmit c sel
  match path with
  | some p =>
    match getBlock candL p, getBlock runL p with
    | some c2, some r2 => .ok (build c2 r2)
    | _, _ => .error "path does not exist in config"
  | none => .ok (build candL runL)

/-- Modelled from the spec: `dumps(objs, "commands")` — the ordered
command list joined by newlines. -/
def dumpsCommands (objs : List (List Char)) : List Char :=
  List.intercalate ['\n'] objs

/-! ## `Cliconf.get_diff` (ios.py lines 190-341) -/

/-- The fixed capability map `Cliconf.get_device_operations`
(ios.py lines 525-538). -/
structure DeviceOperations where
  supports_diff_replace : Bool
  supports_commit : Bool
  supports_rollback : Bool
  supports_defaults : Bool
  supports_onbox_diff : Bool
  supports_commit_comment : Bool
  supports_multiline_delimiter : Bool
  supports_diff_match : Bool
  supports_diff_ignore_lines : Bool
  supports_generate_diff : Bool
  supports_replace : Bool
deriving DecidableEq, Repr

/-- `Cliconf.get_device_operations`. -/
def get_device_operations : DeviceOperations :=
  ⟨true, false, false, true, false, false, true, true, true, true, false⟩

/-- `Cliconf.get_option_values` (ios.py lines 540-546). -/
structure OptionValues where
  format : List String
  diff_match : List String
  diff_replace : List String
  output : List String
deriving DecidableEq, Repr

/-- `Cliconf.get_option_values`. -/
def get_option_values : OptionValues :=
  ⟨["text"], ["line", "strict", "exact", "none"], ["line", "block"], []⟩

/-- The diff result `{"config_diff": ..., "banner_diff": ...}`. -/
structure DiffResult where
  config_diff : String
  banner_diff : List (List Char × List Char)
deriving DecidableEq, Repr

/-- Python truthiness of the `path` argument (`None` and `[]` are
falsy). -/
def pathFalsy : Option (List String) → Bool
  | none => true
  | some l => l.isEmpty

/-- One section of the exact branch (ios.py lines 262-306): anchor path
from the stripped first line, have-block from the running text (an
unresolved path yields an empty block), want-block from the section
alone (an unresolved path raises), then negations followed by
additions. -/
def exactSectionDiff (running : String) (ignore : List Char → Bool)
    (sec : List Char × List (List Char)) : Except String (List Char) :=
  let pathSeg := pyStrip sec.1
  let candObj := parseL (fun _ => false) (sec.1 :: sec.2)
  let runObj := parseL ignore (splitNl running.data)
  let haveL := (getBlock runObj [pathSeg]).getD []
  match getBlock candObj [pathSeg] with
  | none => .error "path does not exist in config"
  | some wantL => .ok (negatesOf haveL wantL ++ wantsOf haveL wantL)

/-- The exact-branch loop over all candidate sections, concatenating the
per-section diffs in candidate order. -/
def exactDiffGo (running : String) (ignore : List Char → Bool) :
    List (List Char × List (List Char)) → Except String (List Char)
  | [] => .ok []
  | sec :: rest =>
    match exactSectionDiff running ignore sec with
    | .error e => .error e
    | .ok d =>
      match exactDiffGo running ignore rest with
      | .error e => .error e
      | .ok ds => .ok (d ++ ds)

/-- The general branch (ios.py lines 309-339): banner extraction on both
sides, `difference` when a running config is present and matching is
enabled, else the full candidate line list with no running banners. -/
def generalDiff (cand : List Char) (running : String) (diff_match : String)
    (ignore : List Char → Bool) (path : Option (List String)) (diff_replace : String) :
    Except String DiffResult :=
  let ext := extract_banners cand
  let candObj := parseL (fun _ => false) (splitNl ext.1)
  if running ≠ "" ∧ diff_match ≠ "none" then
    let extHave := extract_banners running.data
    let runObj := parseL ignore (splitNl extHave.1)
    match difference candObj runObj (path.map (fun p => p.map (·.data)))
        diff_match diff_replace with
    | .error e => .error e
    | .ok objs =>
      .ok ⟨String.mk (if objs = [] then [] else dumpsCommands objs),
        diffBanners ext.2 extHave.2⟩
  else
    .ok ⟨String.mk (if candObj = [] then [] else dumpsCommands (candObj.map (·.text))),
      diffBanners ext.2 []⟩

/-- `Cliconf.get_diff` (ios.py lines 190-341): validate the arguments,
collapse blank-line pairs in the candidate, split it into sections, and
run either the exact-mode multi-section branch or the general branch. -/
def get_diff (candidate : Option String) (running : String) (diff_match : String)
    (ignore : List Char → Bool) (path : Option (List String)) (diff_replace : String) :
    Except String DiffResult :=
  if candidate.isNone && get_device_operations.supports_generate_diff then
    .error "candidate configuration is required to generate diff"
  else if diff_match ∉ get_option_values.diff_match then
    .error ("match value " ++ diff_match ++ " in invalid")
  else if diff_replace ∉ get_option_values.diff_replace then
    .error ("replace value " ++ diff_replace ++ " in invalid")
  else
    match candidate with
    | none => .error "candidate configuration is required to generate diff"
    | some cand0 =>
      let cand := collapseNl cand0.data
      let cands := sectionsOf (splitNl cand)
      if cands ≠ [] ∧ pathFalsy path ∧ diff_match = "exact" then
        match exactDiffGo running ignore cands with
        | .error e => .error e
        | .ok d => .ok ⟨String.mk (pyRstrip d), []⟩
      else generalDiff cand running diff_match ignore path diff_replace

/-! ## C7 and the `get_diff` validation layer -/

/-- The valid diff-match values of the fixed option map. -/
theorem ov_diff_match :
    get_option_values.diff_match = ["line", "strict", "exact", "none"] := rfl

/-- The valid diff-replace values of the fixed option map. -/
theorem ov_diff_replace : get_option_values.diff_replace = ["line", "block"] := rfl

/-- With a present candidate and valid enums, `get_diff` reduces to its
branch selection. -/
theorem get_diff_some_valid (cand : String) (running : String) (diff_match : String)
    (ignore : List Char → Bool) (path : Option (List String)) (diff_replace : String)
    (hm : diff_match ∈ get_option_values.diff_match)
    (hr : diff_replace ∈ get_option_values.diff_replace) :
    get_diff (some cand) running diff_match ignore path diff_replace =
      (if sectionsOf (splitNl (collapseNl cand.data)) ≠ [] ∧ pathFalsy path ∧
          diff_match = "exact" then
        match exactDiffGo running ignore (sectionsOf (splitNl (collapseNl cand.data))) with
        | .error e => .error e
        | .ok d => .ok ⟨String.mk (pyRstrip d), []⟩
      else generalDiff (collapseNl cand.data) running diff_match ignore path diff_replace) := by
  simp only [get_diff]
  rw [if_neg (by simp), if_neg (not_not_intro hm), if_neg (not_not_intro hr)]

/-- C7: `get_diff` raises an invalid-argument error before computing any
diff whenever `diff_match` is not one of line/strict/exact/none,
whenever `diff_replace` is not one of line/block, and whenever the
candidate is absent — which, because the fixed capability map always
reports `supports_generate_diff`, rejects every absent candidate. -/
theorem get_diff_validation (candidate : Option String) (running : String)
    (diff_match : String) (ignore : List Char → Bool) (path : Option (List String))
    (diff_replace : String)
    (h : candidate = none ∨ diff_match ∉ ["line", "strict", "exact", "none"] ∨
      diff_replace ∉ ["line", "block"]) :
    get_device_operations.supports_generate_diff = true ∧
    ∃ e, get_diff candidate running diff_match ignore path diff_replace = .error e := by
  refine ⟨rfl, ?_⟩
  rcases h with h | h | h
  · subst h
    exact ⟨_, rfl⟩
  · cases candidate with
    | none => exact ⟨_, rfl⟩
    | some c =>
      refine ⟨"match value " ++ diff_match ++ " in invalid", ?_⟩
      simp only [get_diff, ov_diff_match]
      rw [if_neg (by simp), if_pos h]
  · cases candidate with
    | none => exact ⟨_, rfl⟩
    | some c =>
      by_cases h2 : diff_match ∈ ["line", "strict", "exact", "none"]
      · refine ⟨"replace value " ++ diff_replace ++ " in invalid", ?_⟩
        simp only [get_diff, ov_diff_match, ov_diff_replace]
        rw [if_neg (by simp), if_neg (not_not_intro h2), if_pos h]
      · refine ⟨"match value " ++ diff_match ++ " in invalid", ?_⟩
        simp only [get_diff, ov_diff_match]
        rw [if_neg (by simp), if_pos h2]

/-- C7 witness: an invalid match value is rejected. -/
theorem get_diff_validation_witness :
    ∃ e, get_diff (some "hostname R1") "" "bogus" (fun _ => false) none "line" =
      .error e :=
  (get_diff_validation (some "hostname R1") "" "bogus" (fun _ => false) none "line"
    (Or.inr (Or.inl (by decide)))).2

/-! ## C2, C3, C4 counterexamples -/

/-- C2 counterexample: the candidate `"a\n\n\nb"` has two top-level
lines (`a` and `b`), but after the blank-line collapse the child group
`(?:\s+.*\n?)*` spans the surviving blank line and absorbs `b` into the
`a` section: only one section is produced, and with empty running config
the diff is `"a"` — the full candidate content (line `b` included) is
not reproduced. -/
theorem get_diff_exact_sections_counterexample :
    get_diff (some "a\n\n\nb") "" "exact" (fun _ => false) none "line" =
      .ok ⟨"a", []⟩ ∧
    (sectionsOf (splitNl (collapseNl "a\n\n\nb".data))).length = 1 ∧
    ((splitNl "a\n\n\nb".data).filter
      (fun l => leadingWS l == 0 && ! (pyStrip l).isEmpty)).length = 2 := by
  exact ⟨rfl, rfl, rfl⟩

/-- C3 counterexample: for `X = "a\n b\na\n c"` (two sections with the
same top-level anchor `a`), `get_diff(X, X, exact)` resolves both
section anchors to the first `a` block of the running config, so the
second section negates ` b` and re-adds ` c`: the diff is not empty.
And for `X = " a\na\n b"` (a whitespace-headed first line), the leading
` a` is absorbed into the `a` section of the candidate but parsed as a
parentless root of the running config, shadowing the anchor lookup: the
self-diff re-emits `a\n b`. -/
theorem get_diff_idempotence_counterexample :
    (get_diff (some "a\n b\na\n c") "a\n b\na\n c" "exact" (fun _ => false) none "line" =
        .ok ⟨"a\nno  b\na\n c", []⟩ ∧
      ("a\nno  b\na\n c" : String) ≠ "") ∧
    (get_diff (some " a\na\n b") " a\na\n b" "exact" (fun _ => false) none "line" =
        .ok ⟨"a\n b", []⟩ ∧
      ("a\n b" : String) ≠ "") := by
  exact ⟨⟨rfl, by decide⟩, ⟨rfl, by decide⟩⟩

/-- C4 counterexample: with `diff_match="none"` and identical candidate
and running texts containing the same banner, the code never extracts
the running banners (`have_banners = {}`), so `banner_diff` contains the
banner even though the bodies are identical — while the claim's
keys-that-differ map is empty. -/
theorem get_diff_banner_counterexample :
    get_diff (some "banner motd ^Chi^C") "banner motd ^Chi^C" "none"
        (fun _ => false) none "line" =
      .ok ⟨"!! banner removed", [("banner motd".data, "hi".data)]⟩ ∧
    diffBanners (extract_banners (collapseNl "banner motd ^Chi^C".data)).2
      (extract_banners "banner motd ^Chi^C".data).2 = [] ∧
    [("banner motd".data, "hi".data)] ≠ ([] : List (List Char × List Char)) := by
  exact ⟨rfl, rfl, by decide⟩

/-! ## C4 (amended) -/

/-- In the general branch with a nonempty running config and matching
enabled, a successful diff's banner map is exactly the differing-keys
map between both extractions. -/
theorem generalDiff_banner (cand : List Char) (running : String) (diff_match : String)
    (ignore : List Char → Bool) (path : Option (List String)) (diff_replace : String)
    (d : DiffResult) (hcond : running ≠ "" ∧ diff_match ≠ "none")
    (hok : generalDiff cand running diff_match ignore path diff_replace = .ok d) :
    d.banner_diff =
      diffBanners (extract_banners cand).2 (extract_banners running.data).2 := by
  simp only [generalDiff] at hok
  rw [if_pos hcond] at hok
  cases hdiff : difference (parseL (fun _ => false) (splitNl (extract_banners cand).1))
      (parseL ignore (splitNl (extract_banners running.data).1))
      (path.map (fun p => p.map (·.data))) diff_match diff_replace with
  | error e =>
    rw [hdiff] at hok
    exact absurd hok (by simp)
  | ok objs =>
    rw [hdiff] at hok
    injection hok with h2
    rw [← h2]

/-- C4 (amended): for every `get_diff` call that takes the general
branch (running config nonempty, `diff_match` one of line/strict/exact,
and not the exact-mode multi-section branch) and returns a diff, banners
are extracted from the blank-collapsed candidate and from the running
text, and `banner_diff` contains exactly the keys of the candidate's
banner map whose body differs from the corresponding running banner
body (a key absent in running counts as differing), with the
candidate's body as value.  (In the exact multi-section branch the
banner diff is always empty, and with empty running or
`diff_match="none"` the running banners are not extracted.) -/
theorem get_diff_banner_diff_general (cand running : String) (diff_match : String)
    (ignore : List Char → Bool) (path : Option (List String)) (diff_replace : String)
    (d : DiffResult) (hrun : running ≠ "")
    (hmatch : diff_match = "line" ∨ diff_match = "strict" ∨ diff_match = "exact")
    (hbranch : ¬(sectionsOf (splitNl (collapseNl cand.data)) ≠ [] ∧ pathFalsy path ∧
      diff_match = "exact"))
    (hok : get_diff (some cand) running diff_match ignore path diff_replace = .ok d) :
    d.banner_diff =
      diffBanners (extract_banners (collapseNl cand.data)).2
        (extract_banners running.data).2 := by
  have hm : diff_match ∈ get_option_values.diff_match := by
    rcases hmatch with h | h | h <;> simp [h, get_option_values]
  by_cases hr : diff_replace ∈ get_option_values.diff_replace
  · rw [get_diff_some_valid cand running diff_match ignore path diff_replace hm hr] at hok
    rw [if_neg hbranch] at hok
    refine generalDiff_banner _ running diff_match ignore path diff_replace d
      ⟨hrun, ?_⟩ hok
    rcases hmatch with h | h | h <;> simp [h]
  · exfalso
    have : get_diff (some cand) running diff_match ignore path diff_replace =
        .error ("replace value " ++ diff_replace ++ " in invalid") := by
      simp only [get_diff, ov_diff_match, ov_diff_replace]
      rw [if_neg (by simp), if_neg (not_not_intro (by simpa [get_option_values] using hm)),
        if_pos (by simpa [get_option_values] using hr)]
    rw [this] at hok
    exact absurd hok (by simp)

/-- C4 witness: a banner-bearing candidate against a nonempty running
config in line mode. -/
theorem get_diff_banner_diff_general_witness :
    get_diff (some "banner motd ^Cx^C") "hostname R1" "line" (fun _ => false)
        none "line" =
      .ok ⟨"!! banner removed", [("banner motd".data, "x".data)]⟩ ∧
    ([("banner motd".data, "x".data)] : List (List Char × List Char)) =
      diffBanners (extract_banners (collapseNl "banner motd ^Cx^C".data)).2
        (extract_banners "hostname R1".data).2 := by
  have hok : get_diff (some "banner motd ^Cx^C") "hostname R1" "line" (fun _ => false)
      none "line" =
      .ok ⟨"!! banner removed", [("banner motd".data, "x".data)]⟩ := rfl
  refine ⟨hok, ?_⟩
  have h := get_diff_banner_diff_general "banner motd ^Cx^C" "hostname R1" "line"
    (fun _ => false) none "line" ⟨"!! banner removed", [("banner motd".data, "x".data)]⟩
    (by decide) (Or.inl rfl) (fun hcon => absurd hcon.2.2 (by decide)) hok
  exact h.symm

/-! ## Infrastructure lemmas for the exact-branch theorems -/

/-- Python substring containment is list infixhood. -/
theorem containsL_iff (hay n : List Char) : containsL hay n = true ↔ n <:+: hay := by
  simp only [containsL, List.any_eq_true]
  constructor
  · rintro ⟨t, hmem, hpre⟩
    exact ((List.isPrefixOf_iff_prefix.mp hpre).isInfix).trans
      ((List.mem_tails _ _).mp hmem).isInfix
  · rintro ⟨s, t, rfl⟩
    exact ⟨n ++ t, (List.mem_tails _ _).mpr ⟨s, by simp⟩,
      List.isPrefixOf_iff_prefix.mpr (List.prefix_append n t)⟩

/-- Containment is stable under extending the haystack on the right. -/
theorem containsL_append_left (a b n : List Char) (h : containsL a n = true) :
    containsL (a ++ b) n = true :=
  (containsL_iff _ _).mpr (((containsL_iff a n).mp h).trans (List.prefix_append a b).isInfix)

/-- Containment is stable under extending the haystack on the left. -/
theorem containsL_append_right (a b n : List Char) (h : containsL b n = true) :
    containsL (a ++ b) n = true :=
  (containsL_iff _ _).mpr (((containsL_iff b n).mp h).trans ⟨a, [], by simp⟩)

/-- Dropping trailing characters yields a prefix. -/
theorem dropTrail_front (p : Char → Bool) (l : List Char) : dropTrail p l <+: l := by
  rw [← List.reverse_suffix]
  simpa [dropTrail] using List.dropWhile_suffix (l := l.reverse) p

/-- `pyStrip l` is an infix of `l`. -/
theorem pyStrip_within (l : List Char) : pyStrip l <:+: l :=
  ((dropTrail_front isPySpace _).isInfix).trans (List.dropWhile_suffix isPySpace).isInfix

/-- Whitespace characters are not word characters. -/
theorem wsNotWord (c : Char) (h : isPySpace c = true) : isWordChar c = false := by
  have hc : c = ' ' ∨ c = '\t' ∨ c = '\n' ∨ c = '\r' ∨ c = '\x0b' ∨ c = '\x0c' := by
    simpa [isPySpace, or_assoc] using h
  rcases hc with h | h | h | h | h | h <;> subst h <;> decide

/-- Word characters are not whitespace. -/
theorem wordNotWS (c : Char) (h : isWordChar c = true) : isPySpace c = false := by
  cases hps : isPySpace c with
  | false => rfl
  | true => rw [wsNotWord c hps] at h; exact absurd h (by simp)

/-- `dropTrail` gives `[]` exactly on all-satisfying lists. -/
theorem dropTrail_eq_nil_iff (p : Char → Bool) (l : List Char) :
    dropTrail p l = [] ↔ ∀ x ∈ l, p x = true := by
  simp [dropTrail, List.dropWhile_eq_nil_iff]

/-- A nonblank line is not all-whitespace. -/
theorem all_ws_of_strip_nil (l : List Char) (h : l.all isPySpace = true) :
    pyStrip l = [] := by
  have h1 : l.dropWhile isPySpace = [] :=
    List.dropWhile_eq_nil_iff.mpr (fun x hx => by simpa using List.all_eq_true.mp h x hx)
  simp [pyStrip, h1, dropTrail]

/-- A line with nonempty strip is not all-whitespace. -/
theorem not_all_ws (l : List Char) (h : pyStrip l ≠ []) : l.all isPySpace = false := by
  cases ha : l.all isPySpace with
  | false => rfl
  | true => exact absurd (all_ws_of_strip_nil l ha) h

/-- A word-character-headed line has indentation 0. -/
theorem leadingWS_word (c : Char) (t : List Char) (h : isWordChar c = true) :
    leadingWS (c :: t) = 0 := by
  simp [leadingWS, List.takeWhile, wordNotWS c h]

/-- A whitespace-headed line has positive indentation. -/
theorem leadingWS_ws (c : Char) (t : List Char) (h : isPySpace c = true) :
    1 ≤ leadingWS (c :: t) := by
  simp [leadingWS, List.takeWhile, h]

/-- A line whose head is a non-whitespace character has a nonempty
strip. -/
theorem pyStrip_cons_ne_nil (c : Char) (t : List Char) (h : isPySpace c = false) :
    pyStrip (c :: t) ≠ [] := by
  intro hcon
  have h1 : (c :: t).dropWhile isPySpace = c :: t := by
    simp [List.dropWhile, h]
  rw [pyStrip, h1] at hcon
  have := (dropTrail_eq_nil_iff isPySpace (c :: t)).mp hcon c (by simp)
  rw [this] at h
  exact absurd h (by simp)

/-- ConfigLine equality is reflexive. -/
theorem pyEqLine_self (l : PLine) : pyEqLine l l = true := by simp [pyEqLine]

/-- Membership gives Python list membership under ConfigLine equality. -/
theorem pyMemLine_of_mem (l : PLine) (xs : List PLine) (h : l ∈ xs) :
    pyMemLine l xs = true := by
  simp only [pyMemLine, List.any_eq_true]
  exact ⟨l, h, pyEqLine_self l⟩

/-- The negation fold does nothing on lines present in the want-list. -/
theorem foldl_negStep_id (wantL : List PLine) (ls : List PLine)
    (st : List Char × List (List Char))
    (h : ∀ l ∈ ls, pyMemLine l wantL = true) :
    ls.foldl (negStep wantL) st = st := by
  induction ls generalizing st with
  | nil => rfl
  | cons l rest ih =>
    rw [List.foldl_cons, show negStep wantL st l = st from by
      simp [negStep, h l (by simp)]]
    exact ih st (fun x hx => h x (by simp [hx]))

/-- No negations are emitted when every have-line is wanted. -/
theorem negatesOf_sub (haveL wantL : List PLine)
    (h : ∀ l ∈ haveL, pyMemLine l wantL = true) : negatesOf haveL wantL = [] := by
  rw [negatesOf, foldl_negStep_id wantL haveL ([], []) h]

/-- An empty have-block yields no negations. -/
theorem negatesOf_nil (wantL : List PLine) : negatesOf [] wantL = [] := rfl

/-- The addition fold does nothing on lines present in the have-list. -/
theorem foldl_wantStep_id (haveL : List PLine) (ls : List PLine) (acc : List Char)
    (h : ∀ l ∈ ls, pyMemLine l haveL = true) :
    ls.foldl (wantStep haveL) acc = acc := by
  induction ls generalizing acc with
  | nil => rfl
  | cons l rest ih =>
    rw [List.foldl_cons, show wantStep haveL acc l = acc from by
      simp [wantStep, h l (by simp)]]
    exact ih acc (fun x hx => h x (by simp [hx]))

/-- No additions are emitted when every want-line is already present. -/
theorem wantsOf_sub (haveL wantL : List PLine)
    (h : ∀ l ∈ wantL, pyMemLine l haveL = true) : wantsOf haveL wantL = [] := by
  rw [wantsOf, foldl_wantStep_id haveL wantL [] h]

/-! ## Clean configuration texts

The amended C2/C3 statements restrict to candidates in standard
configuration form: no blank or whitespace-only lines, each line either
a top-level command (word-character head) or a nested command
(whitespace head), starting with a top-level command. -/

/-- A nested (child) line: nonblank and whitespace-headed. -/
def childLine (l : List Char) : Prop := pyStrip l ≠ [] ∧ lineStartsWS l = true

/-- Does the line start with a word character? -/
def lineStartsWord : List Char → Bool
  | [] => false
  | c :: _ => isWordChar c

/-- A top-level (anchor) line: word-character-headed. -/
def anchorLine (l : List Char) : Prop := lineStartsWord l = true

instance (l : List Char) : Decidable (childLine l) := by
  unfold childLine; infer_instance

instance (l : List Char) : Decidable (anchorLine l) := by
  unfold anchorLine; infer_instance

/-- Unpack an anchor line. -/
theorem anchorLine_cases {l : List Char} (h : anchorLine l) :
    ∃ c t, l = c :: t ∧ isWordChar c = true := by
  cases l with
  | nil => simp [anchorLine, lineStartsWord] at h
  | cons c t => exact ⟨c, t, rfl, by simpa [anchorLine, lineStartsWord] using h⟩

/-- Anchors are nonblank. -/
theorem anchorLine_strip {l : List Char} (h : anchorLine l) : pyStrip l ≠ [] := by
  obtain ⟨c, t, rfl, hw⟩ := anchorLine_cases h
  exact pyStrip_cons_ne_nil c t (wordNotWS c hw)

/-- Anchors sit at indentation 0. -/
theorem anchorLine_ind {l : List Char} (h : anchorLine l) : leadingWS l = 0 := by
  obtain ⟨c, t, rfl, hw⟩ := anchorLine_cases h
  exact leadingWS_word c t hw

/-- Anchors are not whitespace-headed. -/
theorem anchorLine_not_ws {l : List Char} (h : anchorLine l) : lineStartsWS l = false := by
  obtain ⟨c, t, rfl, hw⟩ := anchorLine_cases h
  simp [lineStartsWS, wordNotWS c hw]

/-- Children have positive indentation. -/
theorem childLine_ind {l : List Char} (h : childLine l) : 1 ≤ leadingWS l := by
  obtain ⟨hs, hw⟩ := h
  cases l with
  | nil => simp [lineStartsWS] at hw
  | cons c t => exact leadingWS_ws c t (by simpa [lineStartsWS] using hw)

/-- On clean lines the child run is the maximal whitespace-headed
prefix. -/
theorem childRunGo_clean (ls : List (List Char))
    (h : ∀ l ∈ ls, anchorLine l ∨ childLine l) :
    childRunGo false ls = (ls.takeWhile lineStartsWS, ls.dropWhile lineStartsWS) := by
  induction ls with
  | nil => rfl
  | cons l rest ih =>
    have hl := h l (by simp)
    have hnb : pyStrip l ≠ [] := by
      rcases hl with hl | hl
      · exact anchorLine_strip hl
      · exact hl.1
    have hna : l.all isPySpace = false := not_all_ws l hnb
    have hrest := ih (fun x hx => h x (by simp [hx]))
    cases hws : lineStartsWS l with
    | true =>
      simp only [childRunGo, hna, Bool.false_eq_true, if_false, hws, Bool.or_self,
        if_true, hrest, List.takeWhile, List.dropWhile]
      simp [hws]
    | false =>
      simp only [childRunGo, hna, Bool.false_eq_true, if_false, hws, Bool.or_self]
      simp [List.takeWhile, List.dropWhile, hws]

/-- Lines are consumed one whole section at a time: on clean line lists
with an anchor first line, the section scan yields one section per
top-level line, in order, each section carrying its anchor and the
following maximal run of nested lines, and the sections partition the
line list. -/
theorem sectionsGo_clean (fuel : Nat) :
    ∀ (ls : List (List Char)), ls.length < fuel →
    (∀ l ∈ ls, anchorLine l ∨ childLine l) →
    (ls = [] ∨ anchorLine (ls.headD [])) →
    (sectionsGo fuel ls).map (·.1) =
      ls.filter (fun l => decide (leadingWS l = 0)) ∧
    ((sectionsGo fuel ls).map (fun sec => sec.1 :: sec.2)).flatten = ls ∧
    (∀ sec ∈ sectionsGo fuel ls, anchorLine sec.1 ∧ ∀ l ∈ sec.2, childLine l) := by
  induction fuel with
  | zero => intro ls hlen; omega
  | succ fuel ih =>
    intro ls hlen hall hfirst
    cases ls with
    | nil => simp [sectionsGo]
    | cons l rest =>
      have hanch : anchorLine l := by
        rcases hfirst with h | h
        · exact absurd h (by simp)
        · simpa using h
      obtain ⟨c, t, rfl, hw⟩ := anchorLine_cases hanch
      have hcr := childRunGo_clean rest (fun x hx => hall x (by simp [hx]))
      have hsec : sectionsGo (fuel + 1) ((c :: t) :: rest) =
          ((c :: t), rest.takeWhile lineStartsWS) ::
            sectionsGo fuel (rest.dropWhile lineStartsWS) := by
        simp [sectionsGo, hw, hcr]
      have hlen2 : (rest.dropWhile lineStartsWS).length < fuel := by
        have h1 : (rest.dropWhile lineStartsWS).length ≤ rest.length :=
          (List.dropWhile_sublist lineStartsWS).length_le
        simp at hlen
        omega
      have hall2 : ∀ x ∈ rest.dropWhile lineStartsWS, anchorLine x ∨ childLine x :=
        fun x hx => hall x (by
          simp only [List.mem_cons]
          exact Or.inr ((List.dropWhile_sublist lineStartsWS).mem hx))
      have hfirst2 : rest.dropWhile lineStartsWS = [] ∨
          anchorLine ((rest.dropWhile lineStartsWS).headD []) := by
        cases hdw : rest.dropWhile lineStartsWS with
        | nil => exact Or.inl rfl
        | cons d dr =>
          refine Or.inr ?_
          have hmem : d ∈ rest := by
            have : d ∈ rest.dropWhile lineStartsWS := by simp [hdw]
            exact (List.dropWhile_sublist lineStartsWS).mem this
          have hdws : lineStartsWS d = false := by
            have := List.head_dropWhile_not lineStartsWS rest (by simp [hdw])
            simpa [hdw] using this
          rcases hall d (by simp [hmem]) with h | h
          · simpa using h
          · rw [h.2] at hdws
            exact absurd hdws (by simp)
      obtain ⟨ih1, ih2, ih3⟩ := ih (rest.dropWhile lineStartsWS) hlen2 hall2 hfirst2
      refine ⟨?_, ?_, ?_⟩
      · rw [hsec]
        simp only [List.map_cons, ih1]
        have hl0 : leadingWS (c :: t) = 0 := leadingWS_word c t hw
        conv_rhs => rw [show ((c :: t) :: rest) =
          ((c :: t) :: rest.takeWhile lineStartsWS) ++ rest.dropWhile lineStartsWS from by
            simp [List.takeWhile_append_dropWhile]]
        rw [List.filter_append]
        have htw : (rest.takeWhile lineStartsWS).filter
            (fun l => decide (leadingWS l = 0)) = [] := by
          rw [List.filter_eq_nil_iff]
          intro x hx
          have hxw : lineStartsWS x = true := List.mem_takeWhile_imp hx
          have hxmem : x ∈ rest := (List.takeWhile_sublist lineStartsWS).mem hx
          have hxc : childLine x := by
            rcases hall x (by simp [hxmem]) with h | h
            · rw [anchorLine_not_ws h] at hxw
              exact absurd hxw (by simp)
            · exact h
          have := childLine_ind hxc
          simp only [decide_eq_true_eq]
          omega
        simp [List.filter_cons, hl0, htw]
      · rw [hsec]
        simp only [List.map_cons, List.flatten_cons, ih2]
        simp [List.takeWhile_append_dropWhile]
      · rw [hsec]
        intro sec hsec2
        rcases List.mem_cons.mp hsec2 with h | h
        · subst h
          refine ⟨by simp [anchorLine, lineStartsWord, hw], ?_⟩
          intro x hx
          have hxw : lineStartsWS x = true := List.mem_takeWhile_imp hx
          have hxmem : x ∈ rest := (List.takeWhile_sublist lineStartsWS).mem hx
          rcases hall x (by simp [hxmem]) with hh | hh
          · rw [anchorLine_not_ws hh] at hxw
            exact absurd hxw (by simp)
          · exact hh
        · exact ih3 sec h

/-! ## `splitNl` / `joinNl` / `collapseNl` lemmas -/

/-- Splitting always yields at least one line. -/
theorem splitNl_ne_nil (s : List Char) : splitNl s ≠ [] := by
  cases s with
  | nil => simp [splitNl]
  | cons c rest =>
    simp only [splitNl]
    by_cases hc : c = '\n'
    · simp [hc]
    · cases hsp : splitNl rest with
      | nil => simp [hc, hsp]
      | cons hd tl => simp [hc, hsp]

/-- Lines contain no newline characters. -/
theorem splitNl_no_nl (s : List Char) : ∀ l ∈ splitNl s, '\n' ∉ l := by
  induction s with
  | nil =>
    intro l hl
    simp [splitNl] at hl
    simp [hl]
  | cons c rest ih =>
    intro l hl
    by_cases hc : c = '\n'
    · simp only [splitNl, hc, if_pos rfl] at hl
      rcases List.mem_cons.mp hl with h | h
      · simp [h]
      · exact ih l h
    · cases hsp : splitNl rest with
      | nil => exact absurd hsp (splitNl_ne_nil rest)
      | cons hd tl =>
        simp only [splitNl, hc, if_neg hc, hsp] at hl
        rcases List.mem_cons.mp hl with h | h
        · subst h
          intro hmem
          rcases List.mem_cons.mp hmem with h2 | h2
          · exact hc h2.symm
          · exact ih hd (by simp [hsp]) h2
        · exact ih l (by simp [hsp, h])

/-- Rejoining the split lines recovers the text. -/
theorem joinNl_splitNl (s : List Char) : joinNl (splitNl s) = s := by
  induction s with
  | nil => rfl
  | cons c rest ih =>
    by_cases hc : c = '\n'
    · subst hc
      cases hsp : splitNl rest with
      | nil => exact absurd hsp (splitNl_ne_nil rest)
      | cons hd tl =>
        rw [show splitNl ('\n' :: rest) = [] :: hd :: tl from by simp [splitNl, hsp]]
        rw [show joinNl ([] :: hd :: tl) = [] ++ '\n' :: joinNl (hd :: tl) from rfl]
        rw [← hsp, ih]
        rfl
    · cases hsp : splitNl rest with
      | nil => exact absurd hsp (splitNl_ne_nil rest)
      | cons hd tl =>
        rw [show splitNl (c :: rest) = (c :: hd) :: tl from by simp [splitNl, hc, hsp]]
        have hrest : joinNl (hd :: tl) = rest := by rw [← hsp, ih]
        cases tl with
        | nil =>
          rw [show joinNl [c :: hd] = c :: hd from rfl]
          rw [show joinNl [hd] = hd from rfl] at hrest
          rw [hrest]
        | cons x tl2 =>
          rw [show joinNl ((c :: hd) :: x :: tl2) =
            (c :: hd) ++ '\n' :: joinNl (x :: tl2) from rfl]
          rw [show joinNl (hd :: x :: tl2) = hd ++ '\n' :: joinNl (x :: tl2) from rfl] at hrest
          simp only [List.cons_append]
          rw [hrest]

/-- The two-element unfolding of the blank-line collapse. -/
theorem collapseNl_two (a b : Char) (r : List Char) (h : ¬(a = '\n' ∧ b = '\n')) :
    collapseNl (a :: b :: r) = a :: collapseNl (b :: r) := by
  simp [collapseNl, h]

/-- A newline-free text is unchanged by the collapse. -/
theorem collapseNl_no_nl (l : List Char) (h : '\n' ∉ l) : collapseNl l = l := by
  induction l with
  | nil => rfl
  | cons c r ih =>
    cases r with
    | nil => rfl
    | cons b r2 =>
      have hc : c ≠ '\n' := fun he => h (by simp [he])
      rw [collapseNl_two c b r2 (fun hab => hc hab.1)]
      rw [ih (fun hm => h (by simp [hm]))]

/-- The collapse walks over one newline-free line followed by a newline
whose successor is not a newline. -/
theorem collapseNl_line_append (l u : List Char) (hl : '\n' ∉ l)
    (hu : u = [] ∨ ∃ y v, u = y :: v ∧ y ≠ '\n') :
    collapseNl (l ++ '\n' :: u) = l ++ '\n' :: collapseNl u := by
  induction l with
  | nil =>
    rcases hu with rfl | ⟨y, v, rfl, hy⟩
    · rfl
    · exact collapseNl_two '\n' y v (fun hab => hy hab.2)
  | cons c l2 ih =>
    have hc : c ≠ '\n' := fun he => hl (by simp [he])
    have step : collapseNl (c :: (l2 ++ '\n' :: u)) = c :: collapseNl (l2 ++ '\n' :: u) := by
      cases hl2 : l2 ++ '\n' :: u with
      | nil => simp at hl2
      | cons b r2 =>
        exact collapseNl_two c b r2 (fun hab => hc hab.1)
    rw [show (c :: l2) ++ '\n' :: u = c :: (l2 ++ '\n' :: u) from rfl, step,
      ih (fun hm => hl (by simp [hm]))]
    rfl

/-- The collapse is the identity on a join of nonempty newline-free
lines. -/
theorem collapseNl_join (L : List (List Char)) (h : ∀ l ∈ L, l ≠ [] ∧ '\n' ∉ l) :
    collapseNl (joinNl L) = joinNl L := by
  induction L with
  | nil => rfl
  | cons l R ih =>
    cases R with
    | nil => exact collapseNl_no_nl l (h l (by simp)).2
    | cons l2 R2 =>
      have hl2 := h l2 (by simp)
      have hu : joinNl (l2 :: R2) = [] ∨
          ∃ y v, joinNl (l2 :: R2) = y :: v ∧ y ≠ '\n' := by
        cases hl2c : l2 with
        | nil => exact absurd hl2c hl2.1
        | cons y v2 =>
          have hy : y ≠ '\n' := fun he => hl2.2 (by simp [hl2c, he])
          cases R2 with
          | nil => exact Or.inr ⟨y, v2, by simp [hl2c, joinNl], hy⟩
          | cons z R3 =>
            exact Or.inr ⟨y, v2 ++ '\n' :: joinNl (z :: R3), by simp [hl2c, joinNl], hy⟩
      rw [show joinNl (l :: l2 :: R2) = l ++ '\n' :: joinNl (l2 :: R2) from rfl,
        collapseNl_line_append l _ (h l (by simp)).2 hu,
        ih (fun x hx => h x (by simp [hx]))]

/-- For a text whose lines are all nonempty, the blank-line collapse is
the identity. -/
theorem collapseNl_clean (s : List Char) (h : ∀ l ∈ splitNl s, l ≠ []) :
    collapseNl s = s := by
  conv_lhs => rw [← joinNl_splitNl s]
  rw [collapseNl_join (splitNl s) (fun l hl => ⟨h l hl, splitNl_no_nl s l hl⟩),
    joinNl_splitNl]

/-- Flattening newline-terminated lines is the join plus one final
newline. -/
theorem flatten_map_nl (L : List (List Char)) (h : L ≠ []) :
    (L.map (· ++ ['\n'])).flatten = joinNl L ++ ['\n'] := by
  induction L with
  | nil => simp at h
  | cons l R ih =>
    cases R with
    | nil => simp [joinNl]
    | cons l2 R2 =>
      have ih2 := ih (by simp)
      rw [show joinNl (l :: l2 :: R2) = l ++ '\n' :: joinNl (l2 :: R2) from rfl]
      rw [List.map_cons, List.flatten_cons, ih2]
      simp

/-- A trailing newline is removed by `rstrip`. -/
theorem pyRstrip_append_nl (x : List Char) : pyRstrip (x ++ ['\n']) = pyRstrip x := by
  simp [pyRstrip, dropTrail, List.dropWhile, show isPySpace '\n' = true from rfl]

/-! ## Parse lemmas for clean sections -/

/-- Field projection dropping the has-children flag. -/
def stripHC (pl : PLine) : List Char × Nat × List Char × List (List Char) :=
  (pl.raw, pl.ind, pl.text, pl.parents)

/-- The has-children pass only adds the flag. -/
theorem markChildren_proj (es : List (List Char × Nat × List Char × List (List Char))) :
    (markChildren es).map stripHC = es := by
  induction es with
  | nil => rfl
  | cons e rest ih => simp [markChildren, stripHC, ih]

/-- Members of the marked list come from the parse list. -/
theorem mem_markChildren {pl : PLine} {es : List (List Char × Nat × List Char × List (List Char))}
    (h : pl ∈ markChildren es) : stripHC pl ∈ es := by
  rw [← markChildren_proj es]
  exact List.mem_map_of_mem _ h

/-- Raw lines survive the has-children pass. -/
theorem markChildren_raw (es : List (List Char × Nat × List Char × List (List Char))) :
    (markChildren es).map (·.raw) = es.map (·.1) := by
  have h := markChildren_proj es
  calc (markChildren es).map (·.raw)
      = ((markChildren es).map stripHC).map (·.1) := by rw [List.map_map]; rfl
    _ = es.map (·.1) := by rw [h]

/-- One kept step of the stack parser. -/
theorem parseGo_keep (l : List Char) (ls : List (List Char))
    (stack : List (Nat × List Char)) (h : pyStrip l ≠ []) :
    parseGo (fun _ => false) (l :: ls) stack =
      (l, leadingWS l, pyStrip l,
        ((stack.dropWhile (fun p => leadingWS l ≤ p.1)).map Prod.snd).reverse) ::
      parseGo (fun _ => false) ls
        ((leadingWS l, pyStrip l) :: stack.dropWhile (fun p => leadingWS l ≤ p.1)) := by
  simp [parseGo, h]

/-- On all-kept lines the parser preserves the raw lines in order. -/
theorem parseGo_raws (ls : List (List Char)) :
    ∀ stack, (∀ l ∈ ls, pyStrip l ≠ []) →
    (parseGo (fun _ => false) ls stack).map (·.1) = ls := by
  induction ls with
  | nil => intro stack _; rfl
  | cons l rest ih =>
    intro stack h
    rw [parseGo_keep l rest stack (h l (by simp))]
    simp only [List.map_cons]
    rw [ih _ (fun x hx => h x (by simp [hx]))]

/-- Every parsed entry comes from an input line, with its leading
whitespace as indentation. -/
theorem parseGo_mem (ls : List (List Char)) :
    ∀ stack e, e ∈ parseGo (fun _ => false) ls stack →
    e.1 ∈ ls ∧ e.2.1 = leadingWS e.1 := by
  induction ls with
  | nil => intro stack e he; simp [parseGo] at he
  | cons l rest ih =>
    intro stack e he
    by_cases hk : pyStrip l = []
    · rw [show parseGo (fun _ => false) (l :: rest) stack =
          parseGo (fun _ => false) rest stack from by simp [parseGo, hk]] at he
      have h2 := ih stack e he
      exact ⟨by simp [h2.1], h2.2⟩
    · rw [parseGo_keep l rest stack hk] at he
      rcases List.mem_cons.mp he with h | h
      · subst h
        exact ⟨by simp, rfl⟩
      · have h2 := ih _ e h
        exact ⟨by simp [h2.1], h2.2⟩

/-- For a clean section the anchor path resolves in the section's own
parse to the whole parse: the want-block is the entire section. -/
theorem getBlock_section (p : List Char) (cs : List (List Char))
    (hp : anchorLine p) (hcs : ∀ l ∈ cs, childLine l) :
    getBlock (parseL (fun _ => false) (p :: cs)) [pyStrip p] =
      some (parseL (fun _ => false) (p :: cs)) := by
  obtain ⟨c, t, rfl, hw⟩ := anchorLine_cases hp
  have hk : pyStrip (c :: t) ≠ [] := pyStrip_cons_ne_nil c t (wordNotWS c hw)
  have hind : leadingWS (c :: t) = 0 := leadingWS_word c t hw
  have hpg := parseGo_keep (c :: t) cs [] hk
  rw [hind] at hpg
  rw [show ([] : List (Nat × List Char)).dropWhile (fun p => 0 ≤ p.1) = [] from rfl] at hpg
  simp only [List.map_nil, List.reverse_nil] at hpg
  unfold parseL
  rw [hpg]
  simp only [markChildren]
  simp only [getBlock, List.getLast?_singleton, List.dropLast_single, getBlockGo]
  rw [if_pos (by simp)]
  congr 2
  rw [List.takeWhile_eq_self_iff]
  intro x hx
  have hmem := mem_markChildren hx
  have h2 := parseGo_mem cs _ _ hmem
  have hch := hcs _ h2.1
  have h3 : 1 ≤ leadingWS x.raw := childLine_ind hch
  have hxind : x.ind = leadingWS x.raw := h2.2
  simp only [decide_eq_true_eq]
  show 0 < x.ind
  omega

/-- Ancestor coverage along a parse list (tuple level): at each line,
every parent text has already been seen. -/
def parentsCoveredE (seen : List (List Char)) :
    List (List Char × Nat × List Char × List (List Char)) → Prop
  | [] => True
  | e :: rest => (∀ p ∈ e.2.2.2, p ∈ seen) ∧ parentsCoveredE (pyStrip e.1 :: seen) rest

/-- Ancestor coverage along a `PLine` list. -/
def parentsCovered (seen : List (List Char)) : List PLine → Prop
  | [] => True
  | l :: rest => (∀ p ∈ l.parents, p ∈ seen) ∧ parentsCovered (pyStrip l.raw :: seen) rest

/-- Coverage transfers through the has-children pass. -/
theorem parentsCovered_markChildren (es : List (List Char × Nat × List Char × List (List Char))) :
    ∀ seen, parentsCoveredE seen es → parentsCovered seen (markChildren es) := by
  induction es with
  | nil => intro seen _; exact trivial
  | cons e rest ih =>
    intro seen h
    exact ⟨h.1, ih _ h.2⟩

/-- The stack parser only emits parents whose texts were already
processed (they live on the stack, which is covered by `seen`). -/
theorem parseGo_covered (ls : List (List Char)) :
    ∀ (stack : List (Nat × List Char)) (seen : List (List Char)),
    (∀ e ∈ stack, e.2 ∈ seen) →
    parentsCoveredE seen (parseGo (fun _ => false) ls stack) := by
  induction ls with
  | nil => intro stack seen _; exact trivial
  | cons l rest ih =>
    intro stack seen hst
    by_cases hk : pyStrip l = []
    · rw [show parseGo (fun _ => false) (l :: rest) stack =
          parseGo (fun _ => false) rest stack from by simp [parseGo, hk]]
      exact ih stack seen hst
    · rw [parseGo_keep l rest stack hk]
      refine ⟨?_, ?_⟩
      · intro p hp
        simp only [List.mem_reverse, List.mem_map] at hp
        obtain ⟨e, he, rfl⟩ := hp
        exact hst e ((List.dropWhile_sublist _).mem he)
      · refine ih _ (pyStrip l :: seen) ?_
        intro e he
        rcases List.mem_cons.mp he with h | h
        · subst h; simp
        · exact List.mem_cons_of_mem _ (hst e ((List.dropWhile_sublist _).mem h))

/-- Against an empty have-block, the addition pass emits exactly the raw
lines (each parent text is a substring of an already-emitted earlier raw
line, so the ancestor-context check always skips). -/
theorem foldl_wantStep_emits (wl : List PLine) :
    ∀ (seen : List (List Char)) (acc : List Char),
    parentsCovered seen wl →
    (∀ s ∈ seen, containsL acc s = true) →
    wl.foldl (wantStep []) acc = acc ++ (wl.map (fun l => l.raw ++ ['\n'])).flatten := by
  induction wl with
  | nil => intro seen acc _ _; simp
  | cons l rest ih =>
    intro seen acc hpc hseen
    obtain ⟨hpar, hrest⟩ := hpc
    have hstep : wantStep [] acc l = acc ++ (l.raw ++ ['\n']) := by
      have hfil : l.parents.filter (fun i => ¬ containsL acc i) = [] := by
        rw [List.filter_eq_nil_iff]
        intro p hp
        simp [hseen p (hpar p hp)]
      simp only [wantStep, show pyMemLine l [] = false from rfl, Bool.false_eq_true,
        if_false]
      rw [hfil]
      simp
    rw [List.foldl_cons, hstep,
      ih (pyStrip l.raw :: seen) (acc ++ (l.raw ++ ['\n'])) hrest ?hs]
    · simp
    case hs =>
      intro s hs2
      rcases List.mem_cons.mp hs2 with h | h
      · subst h
        refine containsL_append_right acc _ _ (containsL_append_left _ _ _ ?_)
        exact (containsL_iff _ _).mpr (pyStrip_within l.raw)
      · exact containsL_append_left acc _ s (hseen s h)

/-- For a clean section with an empty have-block, the addition pass
reproduces the section's lines verbatim. -/
theorem wantsOf_section (p : List Char) (cs : List (List Char))
    (hp : anchorLine p) (hcs : ∀ l ∈ cs, childLine l) :
    wantsOf [] (parseL (fun _ => false) (p :: cs)) =
      ((p :: cs).map (· ++ ['\n'])).flatten := by
  have hcov : parentsCovered [] (parseL (fun _ => false) (p :: cs)) :=
    parentsCovered_markChildren _ []
      (parseGo_covered (p :: cs) [] [] (fun e he => by simp at he))
  have hkept : ∀ l ∈ p :: cs, pyStrip l ≠ [] := by
    intro l hl
    rcases List.mem_cons.mp hl with h | h
    · exact h ▸ anchorLine_strip hp
    · exact (hcs l h).1
  have hraws : (parseL (fun _ => false) (p :: cs)).map (·.raw) = p :: cs := by
    rw [parseL, markChildren_raw, parseGo_raws _ _ hkept]
  rw [wantsOf, foldl_wantStep_emits _ [] [] hcov (fun s hs => by simp at hs)]
  rw [show (parseL (fun _ => false) (p :: cs)).map (fun l => l.raw ++ ['\n']) =
    ((parseL (fun _ => false) (p :: cs)).map (·.raw)).map (· ++ ['\n']) from by
      simp [List.map_map]]
  rw [hraws]
  rfl

/-! ## C2 (amended) -/

/-- On a clean section, the per-section exact diff never errors: the
have-block lookup falls back to empty on an unresolved path, and the
result is the negation pass followed by the addition pass. -/
theorem exactSectionDiff_clean (running : String) (ignore : List Char → Bool)
    (sec : List Char × List (List Char))
    (hp : anchorLine sec.1) (hcs : ∀ l ∈ sec.2, childLine l) :
    exactSectionDiff running ignore sec =
      .ok (negatesOf
          ((getBlock (parseL ignore (splitNl running.data)) [pyStrip sec.1]).getD [])
          (parseL (fun _ => false) (sec.1 :: sec.2)) ++
        wantsOf
          ((getBlock (parseL ignore (splitNl running.data)) [pyStrip sec.1]).getD [])
          (parseL (fun _ => false) (sec.1 :: sec.2))) := by
  simp only [exactSectionDiff]
  rw [getBlock_section sec.1 sec.2 hp hcs]

/-- The exact branch concatenates the per-section diffs over all clean
sections, in candidate order. -/
theorem exactDiffGo_clean (running : String) (ignore : List Char → Bool)
    (secs : List (List Char × List (List Char)))
    (h : ∀ sec ∈ secs, anchorLine sec.1 ∧ ∀ l ∈ sec.2, childLine l) :
    exactDiffGo running ignore secs =
      .ok ((secs.map (fun sec =>
        negatesOf
          ((getBlock (parseL ignore (splitNl running.data)) [pyStrip sec.1]).getD [])
          (parseL (fun _ => false) (sec.1 :: sec.2)) ++
        wantsOf
          ((getBlock (parseL ignore (splitNl running.data)) [pyStrip sec.1]).getD [])
          (parseL (fun _ => false) (sec.1 :: sec.2)))).flatten) := by
  induction secs with
  | nil => rfl
  | cons sec rest ih =>
    have hsec := h sec (by simp)
    simp only [exactDiffGo]
    rw [exactSectionDiff_clean running ignore sec hsec.1 hsec.2]
    rw [ih (fun x hx => h x (by simp [hx]))]
    simp

/-- Flattening per-section newline-terminated lines equals flattening
over the concatenated line lists. -/
theorem flatten_map_sections (secs : List (List Char × List (List Char))) :
    (secs.map (fun sec => ((sec.1 :: sec.2).map (· ++ ['\n'])).flatten)).flatten =
      ((secs.map (fun sec => sec.1 :: sec.2)).flatten.map (· ++ ['\n'])).flatten := by
  induction secs with
  | nil => rfl
  | cons s rest ih =>
    conv_rhs => rw [List.map_cons, List.flatten_cons, List.map_append, List.flatten_append]
    rw [List.map_cons, List.flatten_cons, ih]

/-- C2 (amended): for a candidate in standard configuration form (no
blank or whitespace-only lines, every line either top-level
word-character-headed or whitespace-indented, first line top-level),
`get_diff` in exact mode with no path splits the candidate into one
section per top-level line; the sections partition the candidate's lines
in candidate order; each section is diffed independently against the
running block at its anchor path, an unresolvable path giving an empty
have-block rather than an error; per section all negation commands
precede all addition commands; and with empty running config the diff
reproduces the full (right-stripped) candidate content as additive
lines. -/
theorem get_diff_exact_structure (cand running : String) (ignore : List Char → Bool)
    (diff_replace : String) (hrepl : diff_replace ∈ get_option_values.diff_replace)
    (hfirst : anchorLine ((splitNl cand.data).headD []))
    (hall : ∀ l ∈ splitNl cand.data, anchorLine l ∨ childLine l) :
    (sectionsOf (splitNl cand.data)).map (·.1) =
      (splitNl cand.data).filter (fun l => decide (leadingWS l = 0)) ∧
    ((sectionsOf (splitNl cand.data)).map (fun sec => sec.1 :: sec.2)).flatten =
      splitNl cand.data ∧
    get_diff (some cand) running "exact" ignore none diff_replace =
      .ok ⟨String.mk (pyRstrip (((sectionsOf (splitNl cand.data)).map (fun sec =>
          negatesOf
            ((getBlock (parseL ignore (splitNl running.data)) [pyStrip sec.1]).getD [])
            (parseL (fun _ => false) (sec.1 :: sec.2)) ++
          wantsOf
            ((getBlock (parseL ignore (splitNl running.data)) [pyStrip sec.1]).getD [])
            (parseL (fun _ => false) (sec.1 :: sec.2)))).flatten)), []⟩ ∧
    (∀ wl : List PLine, negatesOf [] wl = []) ∧
    (running = "" →
      get_diff (some cand) running "exact" ignore none diff_replace =
        .ok ⟨String.mk (pyRstrip cand.data), []⟩) := by
  have hnb : ∀ l ∈ splitNl cand.data, l ≠ [] := by
    intro l hl
    rcases hall l hl with h | h
    · obtain ⟨c, t, rfl, _⟩ := anchorLine_cases h
      simp
    · intro he
      subst he
      exact h.1 rfl
  have hcol : collapseNl cand.data = cand.data := collapseNl_clean _ hnb
  obtain ⟨h1x, h2x, h3x⟩ := sectionsGo_clean ((splitNl cand.data).length + 1)
    (splitNl cand.data) (Nat.lt_succ_self _) hall (Or.inr hfirst)
  have h1 : (sectionsOf (splitNl cand.data)).map (·.1) =
      (splitNl cand.data).filter (fun l => decide (leadingWS l = 0)) := h1x
  have h2 : ((sectionsOf (splitNl cand.data)).map (fun sec => sec.1 :: sec.2)).flatten =
      splitNl cand.data := h2x
  have h3 : ∀ sec ∈ sectionsOf (splitNl cand.data),
      anchorLine sec.1 ∧ ∀ l ∈ sec.2, childLine l := h3x
  have hne : sectionsOf (splitNl cand.data) ≠ [] := by
    intro h0
    have hmap : (sectionsOf (splitNl cand.data)).map (·.1) = [] := by rw [h0]; rfl
    rw [h1] at hmap
    cases hsp : splitNl cand.data with
    | nil => exact absurd hsp (splitNl_ne_nil _)
    | cons l0 rest =>
      have hanch : anchorLine l0 := by
        have := hfirst
        rw [hsp] at this
        simpa using this
      have hl0 : leadingWS l0 = 0 := anchorLine_ind hanch
      rw [hsp] at hmap
      simp [List.filter_cons, hl0] at hmap
  have hmain : get_diff (some cand) running "exact" ignore none diff_replace =
      .ok ⟨String.mk (pyRstrip (((sectionsOf (splitNl cand.data)).map (fun sec =>
          negatesOf
            ((getBlock (parseL ignore (splitNl running.data)) [pyStrip sec.1]).getD [])
            (parseL (fun _ => false) (sec.1 :: sec.2)) ++
          wantsOf
            ((getBlock (parseL ignore (splitNl running.data)) [pyStrip sec.1]).getD [])
            (parseL (fun _ => false) (sec.1 :: sec.2)))).flatten)), []⟩ := by
    rw [get_diff_some_valid cand running "exact" ignore none diff_replace
      (by decide) hrepl]
    rw [hcol]
    rw [if_pos ⟨hne, rfl, rfl⟩]
    rw [exactDiffGo_clean running ignore (sectionsOf (splitNl cand.data)) h3]
  refine ⟨h1, h2, hmain, fun wl => negatesOf_nil wl, ?_⟩
  intro hrun
  subst hrun
  rw [hmain]
  have hsecs : ∀ sec ∈ sectionsOf (splitNl cand.data),
      negatesOf
        ((getBlock (parseL ignore (splitNl ("" : String).data)) [pyStrip sec.1]).getD [])
        (parseL (fun _ => false) (sec.1 :: sec.2)) ++
      wantsOf
        ((getBlock (parseL ignore (splitNl ("" : String).data)) [pyStrip sec.1]).getD [])
        (parseL (fun _ => false) (sec.1 :: sec.2)) =
      ((sec.1 :: sec.2).map (· ++ ['\n'])).flatten := by
    intro sec hsec
    have hpe : (getBlock (parseL ignore (splitNl ("" : String).data)) [pyStrip sec.1]).getD
        ([] : List PLine) = [] := rfl
    rw [hpe, negatesOf_nil, wantsOf_section sec.1 sec.2 (h3 sec hsec).1 (h3 sec hsec).2]
    rfl
  rw [List.map_congr_left hsecs]
  rw [flatten_map_sections, h2, flatten_map_nl _ (splitNl_ne_nil _), joinNl_splitNl,
    pyRstrip_append_nl]

/-- C2 witness: the specification's two-section policy-map example with
empty running config reproduces the candidate verbatim, via the amended
structure theorem. -/
theorem get_diff_exact_structure_witness :
    get_diff (some "policy-map foo\n class c1\n  bandwidth 100\npolicy-map bar\n class c2\n  bandwidth 50")
        "" "exact" (fun _ => false) none "line" =
      .ok ⟨"policy-map foo\n class c1\n  bandwidth 100\npolicy-map bar\n class c2\n  bandwidth 50", []⟩ ∧
    (sectionsOf (splitNl ("policy-map foo\n class c1\n  bandwidth 100\npolicy-map bar\n class c2\n  bandwidth 50" : String).data)).map (·.1) =
      (splitNl ("policy-map foo\n class c1\n  bandwidth 100\npolicy-map bar\n class c2\n  bandwidth 50" : String).data).filter
        (fun l => decide (leadingWS l = 0)) := by
  have h := get_diff_exact_structure
    "policy-map foo\n class c1\n  bandwidth 100\npolicy-map bar\n class c2\n  bandwidth 50"
    "" (fun _ => false) "line" (by decide) (by decide) (by decide)
  refine ⟨?_, h.1⟩
  have h5 := h.2.2.2.2 rfl
  rw [h5]
  rfl

/-! ## C3: block lookup across clean sections -/

/-- Dropping a satisfied prefix keeps an unsatisfied last element. -/
theorem dropWhile_last {α : Type} (p : α → Bool) (x : α) (hx : p x = false) :
    ∀ l : List α, l.getLast? = some x →
      (l.dropWhile p).getLast? = some x ∧ l.dropWhile p ≠ [] := by
  intro l
  induction l with
  | nil => intro hl; simp at hl
  | cons a r ih =>
    intro hl
    cases r with
    | nil =>
      simp only [List.getLast?_singleton] at hl
      injection hl with hl
      subst hl
      rw [show ([a] : List α).dropWhile p = [a] from by simp [List.dropWhile, hx]]
      exact ⟨List.getLast?_singleton a, by simp⟩
    | cons b r2 =>
      rw [List.getLast?_cons_cons] at hl
      by_cases hp : p a
      · rw [show (a :: b :: r2).dropWhile p = (b :: r2).dropWhile p from by
          simp [List.dropWhile, hp]]
        exact ih hl
      · rw [show (a :: b :: r2).dropWhile p = a :: b :: r2 from by
          simp [List.dropWhile, hp]]
        exact ⟨by rw [List.getLast?_cons_cons]; exact hl, by simp⟩

/-- A top-level line resets the parser stack: its parse step does not
depend on the incoming stack. -/
theorem parseGo_anchor (a : List Char) (rest : List (List Char))
    (stack : List (Nat × List Char)) (ha : anchorLine a) :
    parseGo (fun _ => false) (a :: rest) stack =
      (a, 0, pyStrip a, []) ::
        parseGo (fun _ => false) rest [(0, pyStrip a)] := by
  have hk : pyStrip a ≠ [] := anchorLine_strip ha
  have hind : leadingWS a = 0 := anchorLine_ind ha
  rw [parseGo_keep a rest stack hk, hind]
  have hdw : stack.dropWhile (fun q => 0 ≤ q.1) = [] := by
    rw [List.dropWhile_eq_nil_iff]
    intro q _
    simp
  rw [hdw]
  rfl

/-- Parsing clean children followed by an anchor-headed (or empty)
remainder splits into the child parse and a standalone remainder
parse. -/
theorem parseGo_child_append (cs R : List (List Char))
    (hR : R = [] ∨ anchorLine (R.headD [])) :
    ∀ stack, (∀ l ∈ cs, childLine l) →
      parseGo (fun _ => false) (cs ++ R) stack =
        parseGo (fun _ => false) cs stack ++ parseGo (fun _ => false) R [] := by
  induction cs with
  | nil =>
    intro stack _
    rcases hR with rfl | hR
    · rfl
    · cases R with
      | nil => simp [anchorLine, lineStartsWord] at hR
      | cons r0 R2 =>
        have hr0 : anchorLine r0 := by simpa using hR
        show parseGo (fun _ => false) (r0 :: R2) stack =
          parseGo (fun _ => false) ([] : List (List Char)) stack ++
            parseGo (fun _ => false) (r0 :: R2) []
        rw [show parseGo (fun _ => false) ([] : List (List Char)) stack = [] from rfl,
          List.nil_append, parseGo_anchor r0 R2 stack hr0, parseGo_anchor r0 R2 [] hr0]
  | cons l cs2 ih =>
    intro stack hcs
    have hcl := hcs l (by simp)
    rw [List.cons_append, parseGo_keep l (cs2 ++ R) stack hcl.1,
      parseGo_keep l cs2 stack hcl.1,
      ih _ (fun x hx => hcs x (by simp [hx]))]
    rfl

/-- The stack parser over concatenated clean sections equals the
concatenation of the standalone per-section parses. -/
theorem parseGo_sections (secs : List (List Char × List (List Char))) :
    ∀ stack, (∀ sec ∈ secs, anchorLine sec.1 ∧ ∀ l ∈ sec.2, childLine l) →
    parseGo (fun _ => false) ((secs.map (fun sec => sec.1 :: sec.2)).flatten) stack =
      (secs.map (fun sec => parseGo (fun _ => false) (sec.1 :: sec.2) [])).flatten := by
  induction secs with
  | nil => intro stack _; rfl
  | cons sec rest ih =>
    intro stack h
    have hsec := h sec (by simp)
    have hR : (rest.map (fun sec => sec.1 :: sec.2)).flatten = [] ∨
        anchorLine (((rest.map (fun sec => sec.1 :: sec.2)).flatten).headD []) := by
      cases rest with
      | nil => exact Or.inl rfl
      | cons r0 rr =>
        refine Or.inr ?_
        have hr0 := (h r0 (by simp)).1
        simpa using hr0
    simp only [List.map_cons, List.flatten_cons, List.cons_append]
    rw [parseGo_anchor sec.1 _ stack hsec.1]
    rw [parseGo_child_append sec.2 _ hR [(0, pyStrip sec.1)] hsec.2]
    rw [ih [] (fun x hx => h x (by simp [hx]))]
    rw [parseGo_anchor sec.1 sec.2 [] hsec.1]
    simp

/-- Over a stack whose bottom entry is an anchor, every parsed child
carries a nonempty parent list. -/
theorem parseGo_child_parents (cs : List (List Char)) :
    ∀ (stack : List (Nat × List Char)) (s : List Char),
    (∀ l ∈ cs, childLine l) → stack.getLast? = some (0, s) →
    ∀ e ∈ parseGo (fun _ => false) cs stack, e.2.2.2 ≠ [] := by
  induction cs with
  | nil =>
    intro stack s _ _ e he
    simp [parseGo] at he
  | cons l cs2 ih =>
    intro stack s hcs hbot e he
    have hcl := hcs l (by simp)
    have hind : 1 ≤ leadingWS l := childLine_ind hcl
    rw [parseGo_keep l cs2 stack hcl.1] at he
    have hplast : (fun q : Nat × List Char => decide (leadingWS l ≤ q.1)) (0, s) = false := by
      simp
      omega
    obtain ⟨hdlast, hdne⟩ :=
      dropWhile_last (fun q : Nat × List Char => decide (leadingWS l ≤ q.1)) (0, s)
        hplast stack hbot
    rcases List.mem_cons.mp he with hh | hh
    · subst hh
      show ((stack.dropWhile (fun q => decide (leadingWS l ≤ q.1))).map Prod.snd).reverse ≠ []
      intro hcon
      rw [List.reverse_eq_nil_iff, List.map_eq_nil_iff] at hcon
      exact hdne hcon
    · cases hdw : stack.dropWhile (fun q : Nat × List Char => decide (leadingWS l ≤ q.1)) with
      | nil => exact absurd hdw hdne
      | cons q qs =>
        refine ih ((leadingWS l, pyStrip l) :: q :: qs) s
          (fun x hx => hcs x (by simp [hx])) ?_ e ?_
        · rw [List.getLast?_cons_cons]
          rw [hdw] at hdlast
          exact hdlast
        · rw [hdw] at hh
          exact hh

/-- The has-children pass splits at a boundary whose right side starts
at indentation 0. -/
theorem markChildren_append_zero
    (fs : List (List Char × Nat × List Char × List (List Char)))
    (hf : fs = [] ∨ (fs.headD ([], 0, [], [])).2.1 = 0) :
    ∀ es, markChildren (es ++ fs) = markChildren es ++ markChildren fs := by
  intro es
  induction es with
  | nil => rfl
  | cons e es2 ih =>
    cases es2 with
    | cons e2 es3 =>
      rw [List.cons_append, List.cons_append]
      rw [show markChildren (e :: e2 :: (es3 ++ fs)) =
          ⟨e.1, e.2.1, e.2.2.1, e.2.2.2, decide (e.2.1 < e2.2.1)⟩ ::
            markChildren (e2 :: (es3 ++ fs)) from rfl]
      rw [show markChildren (e :: e2 :: es3) =
          ⟨e.1, e.2.1, e.2.2.1, e.2.2.2, decide (e.2.1 < e2.2.1)⟩ ::
            markChildren (e2 :: es3) from rfl]
      rw [List.cons_append]
      have ih2 : markChildren (e2 :: (es3 ++ fs)) =
          markChildren (e2 :: es3) ++ markChildren fs := ih
      rw [ih2]
    | nil =>
      rcases hf with rfl | hf0
      · simp [markChildren]
      · cases fs with
        | nil => simp [markChildren]
        | cons f fs2 =>
          simp only [List.headD_cons] at hf0
          show markChildren (e :: f :: fs2) = markChildren [e] ++ markChildren (f :: fs2)
          rw [show markChildren (e :: f :: fs2) =
              ⟨e.1, e.2.1, e.2.2.1, e.2.2.2, decide (e.2.1 < f.2.1)⟩ ::
                markChildren (f :: fs2) from rfl]
          rw [show markChildren [e] =
              ⟨e.1, e.2.1, e.2.2.1, e.2.2.2, false⟩ :: ([] : List PLine) from rfl]
          rw [hf0]
          simp [Nat.not_lt_zero]

/-- The has-children pass distributes over the per-section parses. -/
theorem markChildren_sections (secs : List (List Char × List (List Char))) :
    (∀ sec ∈ secs, anchorLine sec.1 ∧ ∀ l ∈ sec.2, childLine l) →
    markChildren ((secs.map (fun sec =>
        parseGo (fun _ => false) (sec.1 :: sec.2) [])).flatten) =
      (secs.map (fun sec => parseL (fun _ => false) (sec.1 :: sec.2))).flatten := by
  induction secs with
  | nil => intro _; rfl
  | cons sec rest ih =>
    intro h
    have hf : (rest.map (fun sec =>
          parseGo (fun _ => false) (sec.1 :: sec.2) [])).flatten = [] ∨
        (((rest.map (fun sec =>
          parseGo (fun _ => false) (sec.1 :: sec.2) [])).flatten).headD
            ([], 0, [], [])).2.1 = 0 := by
      cases rest with
      | nil => exact Or.inl rfl
      | cons r0 rr =>
        refine Or.inr ?_
        have hr0 := (h r0 (by simp)).1
        rw [List.map_cons, List.flatten_cons, parseGo_anchor r0.1 r0.2 [] hr0]
        rfl
    simp only [List.map_cons, List.flatten_cons]
    rw [markChildren_append_zero _ hf]
    rw [ih (fun x hx => h x (by simp [hx]))]
    rfl

/-- The marked parse of a clean section starts with its anchor line at
indentation 0 with no parents. -/
theorem parseL_anchor_cons (a : List Char) (cs : List (List Char)) (ha : anchorLine a) :
    ∃ hc, parseL (fun _ => false) (a :: cs) =
      ⟨a, 0, pyStrip a, [], hc⟩ ::
        markChildren (parseGo (fun _ => false) cs [(0, pyStrip a)]) := by
  rw [parseL, parseGo_anchor a cs [] ha]
  exact ⟨_, rfl⟩

/-- The block lookup skips items that do not match the path. -/
theorem getBlockGo_skip (t : List Char) (rest : List PLine) :
    ∀ items : List PLine, (∀ pl ∈ items, ¬(pl.text = t ∧ pl.parents = [])) →
    getBlockGo t [] (items ++ rest) = getBlockGo t [] rest := by
  intro items
  induction items with
  | nil => intro _; rfl
  | cons pl items2 ih =>
    intro h
    rw [List.cons_append]
    rw [show getBlockGo t [] (pl :: (items2 ++ rest)) =
        getBlockGo t [] (items2 ++ rest) from by
      simp only [getBlockGo]
      rw [if_neg (h pl (by simp))]]
    exact ih (fun x hx => h x (by simp [hx]))

/-- The lookup hits a clean section's own block: the anchor matches and
the whole marked section follows as its sub-block. -/
theorem getBlockGo_hit (a : List Char) (cs : List (List Char)) (R : List PLine)
    (ha : anchorLine a) (hcs : ∀ l ∈ cs, childLine l)
    (hR : R = [] ∨ ∃ r0 rr, R = r0 :: rr ∧ r0.ind = 0) :
    getBlockGo (pyStrip a) [] (parseL (fun _ => false) (a :: cs) ++ R) =
      some (parseL (fun _ => false) (a :: cs)) := by
  obtain ⟨hc, hM⟩ := parseL_anchor_cons a cs ha
  have hdeep : ∀ x ∈ markChildren (parseGo (fun _ => false) cs [(0, pyStrip a)]),
      decide (0 < x.ind) = true := by
    intro x hx
    have hmem := mem_markChildren hx
    have h2 := parseGo_mem cs _ _ hmem
    have hch := hcs _ h2.1
    have h3 : 1 ≤ leadingWS x.raw := childLine_ind hch
    have hxind : x.ind = leadingWS x.raw := h2.2
    simp only [decide_eq_true_eq]
    omega
  rw [hM, List.cons_append]
  simp only [getBlockGo]
  rw [if_pos (by simp)]
  show some ((⟨a, 0, pyStrip a, [], hc⟩ : PLine) ::
      (markChildren (parseGo (fun _ => false) cs [(0, pyStrip a)]) ++ R).takeWhile
        (fun x => decide (0 < x.ind))) =
    some ((⟨a, 0, pyStrip a, [], hc⟩ : PLine) ::
      markChildren (parseGo (fun _ => false) cs [(0, pyStrip a)]))
  rw [List.takeWhile_append_of_pos hdeep]
  rcases hR with rfl | ⟨r0, rr, rfl, hr0⟩
  · simp
  · rw [show (r0 :: rr).takeWhile (fun x => decide (0 < x.ind)) = [] from by
      simp [List.takeWhile, hr0]]
    simp

/-- Across clean sections with pairwise-distinct anchors, the lookup at
a section's anchor resolves to exactly that section's standalone
parse. -/
theorem getBlockGo_sections (secs : List (List Char × List (List Char))) :
    (∀ sec ∈ secs, anchorLine sec.1 ∧ ∀ l ∈ sec.2, childLine l) →
    ((secs.map (fun s => pyStrip s.1)).Nodup) →
    ∀ sec ∈ secs,
    getBlockGo (pyStrip sec.1) []
        ((secs.map (fun s => parseL (fun _ => false) (s.1 :: s.2))).flatten) =
      some (parseL (fun _ => false) (sec.1 :: sec.2)) := by
  induction secs with
  | nil =>
    intro _ _ sec hmem
    simp at hmem
  | cons s0 rest ih =>
    intro h hnd sec hmem
    simp only [List.map_cons, List.flatten_cons]
    rcases List.mem_cons.mp hmem with rfl | hmemr
    · have hR : ((rest.map (fun s => parseL (fun _ => false) (s.1 :: s.2))).flatten) = [] ∨
          ∃ r0 rr, ((rest.map (fun s =>
            parseL (fun _ => false) (s.1 :: s.2))).flatten) = r0 :: rr ∧ r0.ind = 0 := by
        cases rest with
        | nil => exact Or.inl rfl
        | cons q qs =>
          refine Or.inr ?_
          obtain ⟨hcq, hMq⟩ := parseL_anchor_cons q.1 q.2 (h q (by simp)).1
          refine ⟨⟨q.1, 0, pyStrip q.1, [], hcq⟩,
            markChildren (parseGo (fun _ => false) q.2 [(0, pyStrip q.1)]) ++
              ((qs.map (fun s => parseL (fun _ => false) (s.1 :: s.2))).flatten), ?_, rfl⟩
          rw [List.map_cons, List.flatten_cons, hMq]
          rfl
      exact getBlockGo_hit sec.1 sec.2 _ (h sec (by simp)).1 (h sec (by simp)).2 hR
    · have hndc := List.nodup_cons.mp hnd
      have hne : pyStrip s0.1 ≠ pyStrip sec.1 := by
        intro he
        apply hndc.1
        show pyStrip s0.1 ∈ List.map (fun s => pyStrip s.1) rest
        rw [he]
        exact List.mem_map_of_mem _ hmemr
      have hskip : ∀ pl ∈ parseL (fun _ => false) (s0.1 :: s0.2),
          ¬(pl.text = pyStrip sec.1 ∧ pl.parents = ([] : List (List Char))) := by
        obtain ⟨hc0, hM0⟩ := parseL_anchor_cons s0.1 s0.2 (h s0 (by simp)).1
        intro pl hpl hpair
        rw [hM0] at hpl
        rcases List.mem_cons.mp hpl with rfl | hplm
        · exact hne hpair.1
        · have hmemE := mem_markChildren hplm
          exact parseGo_child_parents s0.2 [(0, pyStrip s0.1)] (pyStrip s0.1)
            (h s0 (by simp)).2 (List.getLast?_singleton _) (stripHC pl) hmemE hpair.2
      rw [getBlockGo_skip (pyStrip sec.1) _ _ hskip]
      exact ih (fun x hx => h x (by simp [hx])) hndc.2 sec hmemr

/-- C3 (amended): diff idempotence holds for every candidate in standard
configuration form — no blank or whitespace-only lines, first line
top-level, every line either a top-level (word-character-headed) command
or a whitespace-indented nested command, and pairwise-distinct top-level
command texts: the exact-mode self-diff with no path returns an empty
config diff and an empty banner diff. -/
theorem get_diff_exact_idempotent (X : String)
    (hfirst : anchorLine ((splitNl X.data).headD []))
    (hall : ∀ l ∈ splitNl X.data, anchorLine l ∨ childLine l)
    (hnd : (((splitNl X.data).filter
      (fun l => decide (leadingWS l = 0))).map pyStrip).Nodup) :
    get_diff (some X) X "exact" (fun _ => false) none "line" = .ok ⟨"", []⟩ := by
  have hnb : ∀ l ∈ splitNl X.data, l ≠ [] := by
    intro l hl
    rcases hall l hl with h | h
    · obtain ⟨c, t, rfl, _⟩ := anchorLine_cases h
      simp
    · intro he
      subst he
      exact h.1 rfl
  have hcol : collapseNl X.data = X.data := collapseNl_clean _ hnb
  obtain ⟨h1x, h2x, h3x⟩ := sectionsGo_clean ((splitNl X.data).length + 1)
    (splitNl X.data) (Nat.lt_succ_self _) hall (Or.inr hfirst)
  have h1 : (sectionsOf (splitNl X.data)).map (·.1) =
      (splitNl X.data).filter (fun l => decide (leadingWS l = 0)) := h1x
  have h2 : ((sectionsOf (splitNl X.data)).map (fun sec => sec.1 :: sec.2)).flatten =
      splitNl X.data := h2x
  have h3 : ∀ sec ∈ sectionsOf (splitNl X.data),
      anchorLine sec.1 ∧ ∀ l ∈ sec.2, childLine l := h3x
  have hne : sectionsOf (splitNl X.data) ≠ [] := by
    intro h0
    have hmap : (sectionsOf (splitNl X.data)).map (·.1) = [] := by rw [h0]; rfl
    rw [h1] at hmap
    cases hsp : splitNl X.data with
    | nil => exact absurd hsp (splitNl_ne_nil _)
    | cons l0 rest =>
      have hanch : anchorLine l0 := by
        have := hfirst
        rw [hsp] at this
        simpa using this
      have hl0 : leadingWS l0 = 0 := anchorLine_ind hanch
      rw [hsp] at hmap
      simp [List.filter_cons, hl0] at hmap
  have hnd2 : ((sectionsOf (splitNl X.data)).map (fun s => pyStrip s.1)).Nodup := by
    have hmm : (sectionsOf (splitNl X.data)).map (fun s => pyStrip s.1) =
        (((splitNl X.data).filter (fun l => decide (leadingWS l = 0))).map pyStrip) := by
      rw [← h1, List.map_map]
      rfl
    rw [hmm]
    exact hnd
  have hblock : ∀ sec ∈ sectionsOf (splitNl X.data),
      getBlock (parseL (fun _ => false) (splitNl X.data)) [pyStrip sec.1] =
        some (parseL (fun _ => false) (sec.1 :: sec.2)) := by
    intro sec hsec
    simp only [getBlock, List.getLast?_singleton, List.dropLast_single]
    conv_lhs =>
      rw [show splitNl X.data =
        ((sectionsOf (splitNl X.data)).map (fun sec => sec.1 :: sec.2)).flatten from
          h2.symm]
    rw [parseL, parseGo_sections (sectionsOf (splitNl X.data)) [] h3,
      markChildren_sections (sectionsOf (splitNl X.data)) h3]
    exact getBlockGo_sections (sectionsOf (splitNl X.data)) h3 hnd2 sec hsec
  rw [get_diff_some_valid X X "exact" (fun _ => false) none "line" (by decide) (by decide)]
  rw [hcol]
  rw [if_pos ⟨hne, rfl, rfl⟩]
  rw [exactDiffGo_clean X (fun _ => false) (sectionsOf (splitNl X.data)) h3]
  have hsecs : ∀ sec ∈ sectionsOf (splitNl X.data),
      negatesOf
          ((getBlock (parseL (fun _ => false) (splitNl X.data)) [pyStrip sec.1]).getD [])
          (parseL (fun _ => false) (sec.1 :: sec.2)) ++
        wantsOf
          ((getBlock (parseL (fun _ => false) (splitNl X.data)) [pyStrip sec.1]).getD [])
          (parseL (fun _ => false) (sec.1 :: sec.2)) = [] := by
    intro sec hsec
    rw [hblock sec hsec, Option.getD_some]
    rw [negatesOf_sub _ _ (fun l hl => pyMemLine_of_mem l _ hl),
      wantsOf_sub _ _ (fun l hl => pyMemLine_of_mem l _ hl)]
    rfl
  rw [List.map_congr_left hsecs]
  rw [show ((sectionsOf (splitNl X.data)).map
      (fun _ => ([] : List Char))).flatten = ([] : List Char) from by simp]
  rfl

/-- C3 witness: a clean two-section candidate self-diffs to the empty
diff via the amended idempotence theorem. -/
theorem get_diff_exact_idempotent_witness :
    get_diff (some "a\n b\nc d\n e f") "a\n b\nc d\n e f" "exact" (fun _ => false)
        none "line" = .ok ⟨"", []⟩ :=
  get_diff_exact_idempotent "a\n b\nc d\n e f" (by decide) (by decide) (by decide)
